import Mathlib

/-!
# cherrypicker: missing-commit resolution and cherry-pick orchestration

A shallow embedding of `internal/github/client.go`, `internal/git/git.go`,
`internal/model/commit.go`, `cmd/list.go` (printYAML) and `cmd/create.go`.

The GitHub REST client, the `git` executable and the YAML library are outside
the program.  What the YAML library decodes from the input file is part of the
input.  The first two are scripted.
Each is embedded as a script: the list of answers the outside world gives, in
the order the program asks.  Every call the program makes is recorded, so that
"which requests were issued, and in which order" is a value one can state
theorems about.  A theorem quantified over all scripts holds for every
behaviour of the outside world.
-/

namespace Cherrypicker

/-! ## Errors -/

/-- An argument handed to `fmt.Errorf` besides the wrapped error. -/
inductive FmtArg where
  | str (s : String)
  | int (n : Int)
  deriving DecidableEq, Repr

/-- A Go `error` value.  `foreign` is an error made outside this program (the
GitHub client, `os`, `yaml`, `exec`); `errorf` is `fmt.Errorf` with no `%w`;
`wrapf` is `fmt.Errorf` whose format holds one `%w`, keeping the format, the
other arguments and the wrapped error. -/
inductive GoError where
  | foreign (msg : String)
  | errorf (format : String) (args : List FmtArg)
  | wrapf (format : String) (args : List FmtArg) (cause : GoError)
  deriving DecidableEq, Repr

/-! ## Data model (`go-github` values as the program reads them) -/

/-- A `github.Timestamp` / `time.Time`, as a count of seconds; `0` is the zero
`time.Time`. -/
abbrev Timestamp := Int

/-- A `*github.PullRequest`, reduced to the fields the program reads, each
through its nil-safe getter (`GetNumber`, `GetMergeCommitSHA`): a nil field
reads as the zero value. -/
structure PullRequest where
  Number : Int
  MergeCommitSHA : String
  deriving DecidableEq, Repr

/-- A `*github.RepositoryCommit`, reduced to what `repoCommitToMissing` and the
filters read.  `SHA`, `Message`, `AuthorName` and `HTMLURL` are read through
nil-safe getters.  `AuthorDate` is the pointer `GetCommit().GetAuthor().Date`,
which the program dereferences directly: `none` stands for a nil `Commit`,
a nil `Author` or a nil `Date`. -/
structure RepositoryCommit where
  SHA : String
  Message : String
  AuthorName : String
  AuthorDate : Option Timestamp
  HTMLURL : String
  deriving DecidableEq, Repr

/-- The `MissingCommit` struct of `client.go`. -/
structure MissingCommit where
  SHA : String
  Message : String
  Author : String
  Date : Timestamp
  HTMLURL : String
  PRs : List PullRequest
  deriving DecidableEq, Repr

/-- A `*github.Issue` of a search result; the program reads `GetNumber` only. -/
structure Issue where
  Number : Int
  deriving DecidableEq, Repr

/-- A successful answer of `Repositories.CompareCommits`: the page's commits and
`resp.NextPage`. -/
structure ComparePage where
  Commits : List RepositoryCommit
  NextPage : Int
  deriving DecidableEq, Repr

/-- A successful answer of `Search.Issues`: the page's issues and
`resp.NextPage`. -/
structure SearchPage where
  Issues : List Issue
  NextPage : Int
  deriving DecidableEq, Repr

/-- A request sent to the GitHub API, with the arguments the program passes. -/
inductive Request where
  | compareCommits (owner repo base head : String) (page perPage : Int)
  | searchIssues (query sort order : String) (page perPage : Int)
  | getPullRequest (owner repo : String) (number : Int)
  deriving DecidableEq, Repr

/-- One API call as it happened: the request and the error it came back with
(`none` for a successful answer). -/
structure Call where
  req : Request
  err : Option GoError
  deriving DecidableEq, Repr

/-- The scripted GitHub API: the answers to the successive compare, search and
pull-request detail calls. -/
structure GitHub where
  compare : List (Except GoError ComparePage)
  search : List (Except GoError SearchPage)
  pulls : List (Except GoError PullRequest)

/-- How a call of a Go function `func(...) (T, error)` ends: it returns its two
values, it panics, or the script has no answer left for a request it sends
(`starved`: the embedding says nothing about what follows). -/
inductive Outcome (α : Type) where
  | returned (value : α) (err : Option GoError)
  | panicked
  | starved
  deriving DecidableEq, Repr

/-- A finished call: how it ended and the API calls it made and got an answer
to, in order. -/
structure ApiRun (α : Type) where
  outcome : Outcome α
  calls : List Call
  deriving DecidableEq, Repr

/-- A Go `map[string]V`. -/
abbrev GoMap (ν : Type) := String → Option ν

/-- The empty map (`make(map[string]V, n)`). -/
def GoMap.empty {ν : Type} : GoMap ν := fun _ => none

/-- The assignment `m[k] = v`. -/
def GoMap.set {ν : Type} (m : GoMap ν) (k : String) (v : ν) : GoMap ν :=
  fun s => if s = k then some v else m s

/-! ## `internal/github/client.go` -/

/-- The element `strings.Split(s, "\n")[0]`: the text before the first newline. -/
def firstLine (s : String) : String :=
  String.mk (s.toList.takeWhile (fun c => c != '\n'))

/-- The function `repoCommitToMissing`; `none` is the nil-pointer panic of
`*rc.GetCommit().GetAuthor().Date`. -/
def repoCommitToMissing (rc : RepositoryCommit) : Option MissingCommit :=
  match rc.AuthorDate with
  | none => none
  | some d =>
    some { SHA := rc.SHA, Message := firstLine rc.Message, Author := rc.AuthorName,
           Date := d, HTMLURL := rc.HTMLURL, PRs := [] }

/-- The loop of `compareBranches`, entered with the script still to be consumed,
the page to request and `allCommits` so far. -/
def compareLoop (owner repo base head : String) :
    List (Except GoError ComparePage) → Int → List RepositoryCommit →
      ApiRun (List RepositoryCommit)
  | [], _, _ => ⟨.starved, []⟩
  | .error err :: _, page, _ =>
    ⟨.returned [] (some err), [⟨.compareCommits owner repo base head page 100, some err⟩]⟩
  | .ok comp :: rest, page, allCommits =>
    let call : Call := ⟨.compareCommits owner repo base head page 100, none⟩
    let allCommits := allCommits ++ comp.Commits
    if comp.NextPage = 0 then
      ⟨.returned allCommits none, [call]⟩
    else
      let r := compareLoop owner repo base head rest comp.NextPage allCommits
      ⟨r.outcome, call :: r.calls⟩

/-- The method `compareBranches`. -/
def compareBranches (g : GitHub) (owner repo base head : String) :
    ApiRun (List RepositoryCommit) :=
  compareLoop owner repo base head g.compare 1 []

/-- What the inner loop of `listMergedPRsWithLabel` hands back. -/
structure DetailRun where
  result : Except (Outcome (List PullRequest)) (List PullRequest)
  rest : List (Except GoError PullRequest)
  calls : List Call

/-- The inner loop of `listMergedPRsWithLabel` over one page's issues: one
`PullRequests.Get` per issue.  `.ok allPRs` when the loop runs to its end,
`.error o` when the function leaves from inside the loop with outcome `o`. -/
def detailLoop (owner repo : String) :
    List Issue → List (Except GoError PullRequest) → List PullRequest → DetailRun
  | [], pulls, allPRs => ⟨.ok allPRs, pulls, []⟩
  | _ :: _, [], _ => ⟨.error .starved, [], []⟩
  | issue :: _, .error err :: pulls, _ =>
    ⟨.error (.returned [] (some (.wrapf "getting PR #%d: %w" [.int issue.Number] err))),
      pulls, [⟨.getPullRequest owner repo issue.Number, some err⟩]⟩
  | issue :: issues, .ok pr :: pulls, allPRs =>
    let r := detailLoop owner repo issues pulls (allPRs ++ [pr])
    ⟨r.result, r.rest, ⟨.getPullRequest owner repo issue.Number, none⟩ :: r.calls⟩

/-- The outer loop of `listMergedPRsWithLabel`. -/
def searchLoop (owner repo query : String) :
    List (Except GoError SearchPage) → List (Except GoError PullRequest) → Int →
      List PullRequest → ApiRun (List PullRequest)
  | [], _, _, _ => ⟨.starved, []⟩
  | .error err :: _, _, page, _ =>
    ⟨.returned [] (some err), [⟨.searchIssues query "created" "desc" page 100, some err⟩]⟩
  | .ok result :: rest, pulls, page, allPRs =>
    let call : Call := ⟨.searchIssues query "created" "desc" page 100, none⟩
    let d := detailLoop owner repo result.Issues pulls allPRs
    match d.result with
    | .error o => ⟨o, call :: d.calls⟩
    | .ok allPRs =>
      if result.NextPage = 0 then
        ⟨.returned allPRs none, call :: d.calls⟩
      else
        let r := searchLoop owner repo query rest d.rest result.NextPage allPRs
        ⟨r.outcome, call :: (d.calls ++ r.calls)⟩

/-- The method `listMergedPRsWithLabel`. -/
def listMergedPRsWithLabel (g : GitHub) (owner repo label : String) :
    ApiRun (List PullRequest) :=
  searchLoop owner repo ("repo:" ++ owner ++ "/" ++ repo ++ " is:pr is:merged label:" ++ label)
    g.search g.pulls 1 []

/-- The loop of `ListMissingCommits`: `commits = append(commits, repoCommitToMissing(rc))`.
`none` is the panic of `repoCommitToMissing`. -/
def convertLoop : List RepositoryCommit → List MissingCommit → Option (List MissingCommit)
  | [], commits => some commits
  | rc :: rest, commits =>
    match repoCommitToMissing rc with
    | none => none
    | some mc => convertLoop rest (commits ++ [mc])

/-- The index `prBySHA` of `ListMissingCommitsWithLabel`: `prBySHA[pr.GetMergeCommitSHA()] = pr`
for each pull request in turn. -/
def buildPRBySHA (labeledPRs : List PullRequest) : GoMap PullRequest :=
  labeledPRs.foldl (fun m pr => m.set pr.MergeCommitSHA pr) GoMap.empty

/-- The set `labeledSHAs` of `ListMissingCommitsWithoutLabel`. -/
def buildLabeledSHAs (labeledPRs : List PullRequest) : GoMap Unit :=
  labeledPRs.foldl (fun m pr => m.set pr.MergeCommitSHA ()) GoMap.empty

/-- The filtering loop of `ListMissingCommitsWithLabel`. -/
def withLabelLoop (prBySHA : GoMap PullRequest) :
    List RepositoryCommit → List MissingCommit → Option (List MissingCommit)
  | [], commits => some commits
  | rc :: rest, commits =>
    match prBySHA rc.SHA with
    | none => withLabelLoop prBySHA rest commits
    | some pr =>
      match repoCommitToMissing rc with
      | none => none
      | some mc => withLabelLoop prBySHA rest (commits ++ [{ mc with PRs := [pr] }])

/-- The filtering loop of `ListMissingCommitsWithoutLabel`. -/
def withoutLabelLoop (labeledSHAs : GoMap Unit) :
    List RepositoryCommit → List MissingCommit → Option (List MissingCommit)
  | [], commits => some commits
  | rc :: rest, commits =>
    match labeledSHAs rc.SHA with
    | some _ => withoutLabelLoop labeledSHAs rest commits
    | none =>
      match repoCommitToMissing rc with
      | none => none
      | some mc => withoutLabelLoop labeledSHAs rest (commits ++ [mc])

/-- A loop that ran to its end returns its list with a nil error; one that
panicked makes the call panic. -/
def finish (r : Option (List MissingCommit)) : Outcome (List MissingCommit) :=
  match r with
  | some commits => .returned commits none
  | none => .panicked

/-- The method `ListMissingCommits`. -/
def ListMissingCommits (g : GitHub) (owner repo releaseBranch : String) :
    ApiRun (List MissingCommit) :=
  let c := compareBranches g owner repo releaseBranch "main"
  match c.outcome with
  | .returned _ (some err) =>
    ⟨.returned [] (some (.wrapf "comparing branches: %w" [] err)), c.calls⟩
  | .returned comparison none => ⟨finish (convertLoop comparison []), c.calls⟩
  | .panicked => ⟨.panicked, c.calls⟩
  | .starved => ⟨.starved, c.calls⟩

/-- The method `ListMissingCommitsWithLabel`. -/
def ListMissingCommitsWithLabel (g : GitHub) (owner repo releaseBranch label : String) :
    ApiRun (List MissingCommit) :=
  let l := listMergedPRsWithLabel g owner repo label
  match l.outcome with
  | .returned _ (some err) =>
    ⟨.returned [] (some (.wrapf "listing PRs with label %q: %w" [.str label] err)), l.calls⟩
  | .panicked => ⟨.panicked, l.calls⟩
  | .starved => ⟨.starved, l.calls⟩
  | .returned labeledPRs none =>
    let prBySHA := buildPRBySHA labeledPRs
    let c := compareBranches g owner repo releaseBranch "main"
    match c.outcome with
    | .returned _ (some err) =>
      ⟨.returned [] (some (.wrapf "comparing branches: %w" [] err)), l.calls ++ c.calls⟩
    | .returned compareCommits none =>
      ⟨finish (withLabelLoop prBySHA compareCommits []), l.calls ++ c.calls⟩
    | .panicked => ⟨.panicked, l.calls ++ c.calls⟩
    | .starved => ⟨.starved, l.calls ++ c.calls⟩

/-- The method `ListMissingCommitsWithoutLabel`. -/
def ListMissingCommitsWithoutLabel (g : GitHub) (owner repo releaseBranch label : String) :
    ApiRun (List MissingCommit) :=
  let l := listMergedPRsWithLabel g owner repo label
  match l.outcome with
  | .returned _ (some err) =>
    ⟨.returned [] (some (.wrapf "listing PRs with label %q: %w" [.str label] err)), l.calls⟩
  | .panicked => ⟨.panicked, l.calls⟩
  | .starved => ⟨.starved, l.calls⟩
  | .returned labeledPRs none =>
    let labeledSHAs := buildLabeledSHAs labeledPRs
    let c := compareBranches g owner repo releaseBranch "main"
    match c.outcome with
    | .returned _ (some err) =>
      ⟨.returned [] (some (.wrapf "comparing branches: %w" [] err)), l.calls ++ c.calls⟩
    | .returned compareCommits none =>
      ⟨finish (withoutLabelLoop labeledSHAs compareCommits []), l.calls ++ c.calls⟩
    | .panicked => ⟨.panicked, l.calls ++ c.calls⟩
    | .starved => ⟨.starved, l.calls ++ c.calls⟩

/-! ## `internal/model/commit.go` -/

/-- The struct `model.Commit`. -/
structure Commit where
  SHA : String
  Date : Timestamp
  Author : String
  Message : String
  PR : Int
  deriving DecidableEq, Repr

/-- The struct `model.CherryPickFile`. -/
structure CherryPickFile where
  Repo : String
  ReleaseBranch : String
  Label : String
  Commits : List Commit
  deriving DecidableEq, Repr

/-! ## `cmd/list.go`: printYAML -/

/-- The loop body of `printYAML`: the `model.Commit` made from one missing
commit; `PR` is set from `c.PRs[0].GetNumber()` when `len(c.PRs) > 0`. -/
def toModelCommit (c : MissingCommit) : Commit :=
  let mc : Commit := { SHA := c.SHA, Date := c.Date, Author := c.Author,
                       Message := c.Message, PR := 0 }
  match c.PRs with
  | [] => mc
  | pr :: _ => { mc with PR := pr.Number }

/-- The function `printYAML`: the value `out` it builds and hands to the YAML
encoder.  Turning it into bytes and writing them to standard output is done by
`gopkg.in/yaml.v3` and the system, outside the program, and is not embedded. -/
def printYAML (repo releaseBranch label : String) (commits : List MissingCommit) :
    CherryPickFile :=
  { Repo := "https://github.com/" ++ repo, ReleaseBranch := releaseBranch, Label := label,
    Commits := commits.map toModelCommit }

/-! ## `internal/git/git.go` -/

/-- The scripted `git` executable: the results of the commands still to be run
(`none` is exit status 0) and the commands run so far, each the argument list
handed to `git`. -/
structure GitState where
  answers : List (Option GoError)
  commands : List (List String)
  deriving DecidableEq, Repr

/-- How a call that runs git commands ends: with its return value and the state
it leaves, or on a command the script has no result for. -/
inductive GitStep (α : Type) where
  | done (value : α) (s : GitState)
  | starved (s : GitState)
  deriving DecidableEq, Repr

/-- The function `git.Run`: runs one command and returns its error (the echo on
standard error is not modelled). -/
def Run (args : List String) (s : GitState) : GitStep (Option GoError) :=
  match s.answers with
  | [] => .starved s
  | a :: rest => .done a { answers := rest, commands := s.commands ++ [args] }

/-- The function `git.Checkout`: falls back to creating a tracking branch when
the plain checkout fails. -/
def Checkout (branch : String) (s : GitState) : GitStep (Option GoError) :=
  match Run ["checkout", branch] s with
  | .starved s1 => .starved s1
  | .done none s1 => .done none s1
  | .done (some _) s1 => Run ["checkout", "-b", branch, "origin/" ++ branch] s1

/-- The function `git.Pull`. -/
def Pull (s : GitState) : GitStep (Option GoError) :=
  Run ["pull", "--ff-only"] s

/-- The function `git.CreateBranch`. -/
def CreateBranch (name : String) (s : GitState) : GitStep (Option GoError) :=
  Run ["checkout", "-b", name] s

/-- The function `git.CherryPick`. -/
def CherryPick (sha : String) (s : GitState) : GitStep (Option GoError) :=
  Run ["cherry-pick", sha] s

/-! ## `cmd/create.go` -/

/-- The input file as `parseCherryPickFile` meets it: `os.ReadFile(path)` fails,
or it yields bytes, given here by what `yaml.Unmarshal(data, &cpFile)` makes of
them (an error, or the decoded struct).  The library `gopkg.in/yaml.v3` is
outside the program: what it decodes is part of the input. -/
inductive InputFile where
  | unreadable (err : GoError)
  | contents (decoded : Except GoError CherryPickFile)

/-- The function `parseCherryPickFile`. -/
def parseCherryPickFile (file : InputFile) : Except GoError CherryPickFile :=
  match file with
  | .unreadable err => .error err
  | .contents (.error err) => .error (.wrapf "invalid YAML: %w" [] err)
  | .contents (.ok cpFile) =>
    if cpFile.ReleaseBranch = "" then
      .error (.errorf "releaseBranch is missing from YAML file" [])
    else
      .ok cpFile

/-- The cherry-pick loop of `runCreate`. -/
def cherryPickLoop : List Commit → GitState → GitStep (Option GoError)
  | [], s => .done none s
  | c :: rest, s =>
    match CherryPick c.SHA s with
    | .starved s1 => .starved s1
    | .done (some err) s1 =>
      .done (some (.wrapf
        "cherry-pick failed on %s: %w\nResolve the conflict and run: git cherry-pick --continue"
        [.str c.SHA] err)) s1
    | .done none s1 => cherryPickLoop rest s1

/-- The function `runCreate`; `now` is `time.Now().Format("20060102-150405")`.
The progress lines written to standard error are not modelled. -/
def runCreate (now : String) (file : InputFile) (s : GitState) : GitStep (Option GoError) :=
  match parseCherryPickFile file with
  | .error err => .done (some (.wrapf "parsing input file: %w" [] err)) s
  | .ok cpFile =>
    if cpFile.Commits.length = 0 then
      .done (some (.errorf "no commits found in input file" [])) s
    else
      let releaseBranch := cpFile.ReleaseBranch
      match Checkout releaseBranch s with
      | .starved s1 => .starved s1
      | .done (some err) s1 =>
        .done (some (.wrapf "checking out %s: %w" [.str releaseBranch] err)) s1
      | .done none s1 =>
        match Pull s1 with
        | .starved s2 => .starved s2
        | .done (some err) s2 => .done (some (.wrapf "pulling latest: %w" [] err)) s2
        | .done none s2 =>
          let branchName := "cherrypick-" ++ now
          match CreateBranch branchName s2 with
          | .starved s3 => .starved s3
          | .done (some err) s3 =>
            .done (some (.wrapf "creating branch %s: %w" [.str branchName] err)) s3
          | .done none s3 => cherryPickLoop cpFile.Commits s3

/-! ## Example data (the scenario of the specification) -/

/-- A commit of the diff with the given identifier, carrying an author date. -/
def exampleCommit (sha : String) : RepositoryCommit :=
  { SHA := sha, Message := "subject of " ++ sha ++ "\nbody", AuthorName := "dev",
    AuthorDate := some 1700000000, HTMLURL := "https://github.com/o/r/commit/" ++ sha }

/-- Release branch `v1.2` misses `a1, a2, a3` (two compare pages); the label
`backport` matches pull request 7, merged as `a2`. -/
def exampleGitHub : GitHub :=
  { compare := [.ok ⟨[exampleCommit "a1", exampleCommit "a2"], 2⟩, .ok ⟨[exampleCommit "a3"], 0⟩],
    search := [.ok ⟨[⟨7⟩], 0⟩],
    pulls := [.ok ⟨7, "a2"⟩] }

/-- The same diff, with two labelled pull requests (7, then 9) both recorded as
merged by `a2`. -/
def exampleGitHubTwoPRs : GitHub :=
  { compare := [.ok ⟨[exampleCommit "a1", exampleCommit "a2"], 2⟩, .ok ⟨[exampleCommit "a3"], 0⟩],
    search := [.ok ⟨[⟨7⟩, ⟨9⟩], 0⟩],
    pulls := [.ok ⟨7, "a2"⟩, .ok ⟨9, "a2"⟩] }

/-- The missing commit made from `exampleCommit sha`, with the given pull
requests attached. -/
def exampleMissing (sha : String) (prs : List PullRequest) : MissingCommit :=
  { SHA := sha, Message := "subject of " ++ sha, Author := "dev", Date := 1700000000,
    HTMLURL := "https://github.com/o/r/commit/" ++ sha, PRs := prs }

/-- A diff of one page whose only commit, `a1`, has no author date. -/
def exampleGitHubNoDate : GitHub :=
  { compare := [.ok ⟨[{ SHA := "a1", Message := "subject", AuthorName := "dev",
                        AuthorDate := none, HTMLURL := "" }], 0⟩],
    search := [],
    pulls := [] }

/-- The scenario's diff, with a label search of two pages: the first lists
pull requests 7 and 9, the detail fetch of 7 succeeds and the detail fetch of 9
fails. -/
def exampleGitHubDetailFails : GitHub :=
  { compare := [.ok ⟨[exampleCommit "a1", exampleCommit "a2"], 2⟩, .ok ⟨[exampleCommit "a3"], 0⟩],
    search := [.ok ⟨[⟨7⟩, ⟨9⟩], 2⟩, .ok ⟨[⟨11⟩], 0⟩],
    pulls := [.ok ⟨7, "a2"⟩, .error (.foreign "502 Bad Gateway"), .ok ⟨11, "a3"⟩] }

/-- The scenario's label search, with a diff whose second page fails. -/
def exampleGitHubCompareFails : GitHub :=
  { compare := [.ok ⟨[exampleCommit "a1", exampleCommit "a2"], 2⟩,
                .error (.foreign "503 Service Unavailable"), .ok ⟨[exampleCommit "a3"], 0⟩],
    search := [.ok ⟨[⟨7⟩], 0⟩],
    pulls := [.ok ⟨7, "a2"⟩] }

/-- The decoded plan for the scenario's diff with no label filter: release
branch `v1.2`, commits `a1, a2, a3`. -/
def examplePlanFile : CherryPickFile :=
  { Repo := "https://github.com/o/r", ReleaseBranch := "v1.2", Label := "",
    Commits := [⟨"a1", 1700000000, "dev", "subject of a1", 0⟩,
                ⟨"a2", 1700000000, "dev", "subject of a2", 0⟩,
                ⟨"a3", 1700000000, "dev", "subject of a3", 0⟩] }

/-- A commit of the diff with the given identifier and no author date. -/
def exampleUndatedCommit (sha : String) : RepositoryCommit :=
  { SHA := sha, Message := "subject of " ++ sha, AuthorName := "dev", AuthorDate := none,
    HTMLURL := "https://github.com/o/r/commit/" ++ sha }

/-- A diff of one page, `a1` without author date then `a2`; the label `backport`
matches pull request 7, merged as `a2`, so `a1` is the unlabelled commit. -/
def exampleGitHubUndatedUnlabelled : GitHub :=
  { compare := [.ok ⟨[exampleUndatedCommit "a1", exampleCommit "a2"], 0⟩],
    search := [.ok ⟨[⟨7⟩], 0⟩],
    pulls := [.ok ⟨7, "a2"⟩] }

/-- The same diff; the label `backport` matches pull request 7, merged as `a1`,
so `a1` is the labelled commit. -/
def exampleGitHubUndatedLabelled : GitHub :=
  { compare := [.ok ⟨[exampleUndatedCommit "a1", exampleCommit "a2"], 0⟩],
    search := [.ok ⟨[⟨7⟩], 0⟩],
    pulls := [.ok ⟨7, "a1"⟩] }

/-! ## Lemmas: the indexes built from the labelled pull requests -/

theorem foldl_set_apply {ν : Type} (val : PullRequest → ν) (P : List PullRequest) :
    ∀ (m : GoMap ν) (s : String),
      (P.foldl (fun m pr => m.set pr.MergeCommitSHA (val pr)) m) s =
        match (P.filter (fun pr => pr.MergeCommitSHA = s)).getLast? with
        | some pr => some (val pr)
        | none => m s := by
  induction P using List.reverseRecOn with
  | nil => intro m s; simp
  | append_singleton Q pr ih =>
    intro m s
    rw [List.foldl_append, List.filter_append]
    simp only [List.foldl_cons, List.foldl_nil, GoMap.set]
    by_cases h : s = pr.MergeCommitSHA
    · subst h
      simp
    · have h2 : ¬ pr.MergeCommitSHA = s := fun e => h e.symm
      simp [h, h2, ih]

theorem buildPRBySHA_apply (P : List PullRequest) (s : String) :
    buildPRBySHA P s = (P.filter (fun pr => pr.MergeCommitSHA = s)).getLast? := by
  unfold buildPRBySHA
  rw [foldl_set_apply (fun pr => pr) P GoMap.empty s]
  cases (P.filter (fun pr => pr.MergeCommitSHA = s)).getLast? <;> simp [GoMap.empty]

theorem filter_getLast?_eq_none (P : List PullRequest) (s : String) :
    (P.filter (fun pr => pr.MergeCommitSHA = s)).getLast? = none ↔
      s ∉ P.map (fun pr => pr.MergeCommitSHA) := by
  rw [List.getLast?_eq_none_iff, List.filter_eq_nil_iff]
  simp only [List.mem_map, decide_eq_true_eq, not_exists, not_and]

theorem buildPRBySHA_isSome (P : List PullRequest) (s : String) :
    (buildPRBySHA P s).isSome = decide (s ∈ P.map (fun pr => pr.MergeCommitSHA)) := by
  rw [buildPRBySHA_apply]
  by_cases h : s ∈ P.map (fun pr => pr.MergeCommitSHA)
  · have : (P.filter (fun pr => pr.MergeCommitSHA = s)).getLast? ≠ none := by
      rw [Ne, filter_getLast?_eq_none]; exact fun k => k h
    rw [decide_eq_true h]
    exact Option.isSome_iff_ne_none.mpr this
  · rw [(filter_getLast?_eq_none P s).mpr h, decide_eq_false h]
    rfl

theorem buildLabeledSHAs_isSome (P : List PullRequest) (s : String) :
    (buildLabeledSHAs P s).isSome = decide (s ∈ P.map (fun pr => pr.MergeCommitSHA)) := by
  unfold buildLabeledSHAs
  rw [foldl_set_apply (fun _ => ()) P GoMap.empty s, ← buildPRBySHA_isSome, buildPRBySHA_apply]
  cases (P.filter (fun pr => pr.MergeCommitSHA = s)).getLast? <;> simp [GoMap.empty]

/-! ## Lemmas: the conversion and filtering loops -/

theorem repoCommitToMissing_some (rc : RepositoryCommit) (mc : MissingCommit)
    (h : repoCommitToMissing rc = some mc) : mc.SHA = rc.SHA ∧ mc.PRs = [] := by
  unfold repoCommitToMissing at h
  cases hd : rc.AuthorDate with
  | none => simp [hd] at h
  | some d =>
    simp only [hd, Option.some.injEq] at h
    subst h
    exact ⟨rfl, rfl⟩

theorem repoCommitToMissing_isSome (rc : RepositoryCommit) :
    (repoCommitToMissing rc).isSome = rc.AuthorDate.isSome := by
  unfold repoCommitToMissing
  cases rc.AuthorDate <;> rfl

theorem convertLoop_some (D : List RepositoryCommit) :
    ∀ (acc W : List MissingCommit), convertLoop D acc = some W →
      W.map (fun mc => mc.SHA) = acc.map (fun mc => mc.SHA) ++ D.map (fun rc => rc.SHA) ∧
      (∀ mc ∈ W, mc ∈ acc ∨ mc.PRs = []) := by
  induction D with
  | nil =>
    intro acc W h
    simp only [convertLoop, Option.some.injEq] at h
    subst h
    exact ⟨by simp, fun mc hmc => Or.inl hmc⟩
  | cons rc rest ih =>
    intro acc W h
    unfold convertLoop at h
    cases hc : repoCommitToMissing rc with
    | none => simp [hc] at h
    | some mc =>
      simp only [hc] at h
      obtain ⟨h1, h2⟩ := ih _ _ h
      obtain ⟨hs, hp⟩ := repoCommitToMissing_some rc mc hc
      refine ⟨by simp [h1, hs], fun x hx => ?_⟩
      rcases h2 x hx with hx | hx
      · rcases List.mem_append.mp hx with hx | hx
        · exact Or.inl hx
        · rw [List.mem_singleton] at hx
          exact Or.inr (hx ▸ hp)
      · exact Or.inr hx

theorem convertLoop_isSome (D : List RepositoryCommit) :
    ∀ (acc : List MissingCommit),
      (convertLoop D acc).isSome = true ↔ ∀ rc ∈ D, rc.AuthorDate.isSome = true := by
  induction D with
  | nil => intro acc; simp [convertLoop]
  | cons rc rest ih =>
    intro acc
    unfold convertLoop
    cases hc : repoCommitToMissing rc with
    | none =>
      have := repoCommitToMissing_isSome rc
      rw [hc] at this
      simp [← this]
    | some mc =>
      have := repoCommitToMissing_isSome rc
      rw [hc] at this
      simp [ih, ← this]

theorem withLabelLoop_some (m : GoMap PullRequest) (D : List RepositoryCommit) :
    ∀ (acc W : List MissingCommit), withLabelLoop m D acc = some W →
      W.map (fun mc => mc.SHA) =
        acc.map (fun mc => mc.SHA) ++
          (D.map (fun rc => rc.SHA)).filter (fun s => (m s).isSome) ∧
      (∀ mc ∈ W, mc ∈ acc ∨ ∃ pr, m mc.SHA = some pr ∧ mc.PRs = [pr]) := by
  induction D with
  | nil =>
    intro acc W h
    simp only [withLabelLoop, Option.some.injEq] at h
    subst h
    exact ⟨by simp, fun mc hmc => Or.inl hmc⟩
  | cons rc rest ih =>
    intro acc W h
    unfold withLabelLoop at h
    cases hm : m rc.SHA with
    | none =>
      simp only [hm] at h
      obtain ⟨h1, h2⟩ := ih _ _ h
      exact ⟨by simp [h1, hm], h2⟩
    | some pr =>
      simp only [hm] at h
      cases hc : repoCommitToMissing rc with
      | none => simp [hc] at h
      | some mc =>
        simp only [hc] at h
        obtain ⟨h1, h2⟩ := ih _ _ h
        obtain ⟨hs, _⟩ := repoCommitToMissing_some rc mc hc
        refine ⟨by simp [h1, hm, hs], fun x hx => ?_⟩
        rcases h2 x hx with hx | hx
        · rcases List.mem_append.mp hx with hx | hx
          · exact Or.inl hx
          · rw [List.mem_singleton] at hx
            subst hx
            exact Or.inr ⟨pr, by simp [hs, hm], rfl⟩
        · exact Or.inr hx

theorem withLabelLoop_isSome (m : GoMap PullRequest) (D : List RepositoryCommit) :
    ∀ (acc : List MissingCommit),
      (withLabelLoop m D acc).isSome = true ↔
        ∀ rc ∈ D, (m rc.SHA).isSome = true → rc.AuthorDate.isSome = true := by
  induction D with
  | nil => intro acc; simp [withLabelLoop]
  | cons rc rest ih =>
    intro acc
    unfold withLabelLoop
    cases hm : m rc.SHA with
    | none => simp [ih, hm]
    | some pr =>
      have := repoCommitToMissing_isSome rc
      cases hc : repoCommitToMissing rc with
      | none =>
        rw [hc] at this
        simp [hm, ← this]
      | some mc =>
        rw [hc] at this
        simp [ih, hm, ← this]

theorem withoutLabelLoop_some (m : GoMap Unit) (D : List RepositoryCommit) :
    ∀ (acc W : List MissingCommit), withoutLabelLoop m D acc = some W →
      W.map (fun mc => mc.SHA) =
        acc.map (fun mc => mc.SHA) ++
          (D.map (fun rc => rc.SHA)).filter (fun s => !(m s).isSome) ∧
      (∀ mc ∈ W, mc ∈ acc ∨ mc.PRs = []) := by
  induction D with
  | nil =>
    intro acc W h
    simp only [withoutLabelLoop, Option.some.injEq] at h
    subst h
    exact ⟨by simp, fun mc hmc => Or.inl hmc⟩
  | cons rc rest ih =>
    intro acc W h
    unfold withoutLabelLoop at h
    cases hm : m rc.SHA with
    | some u =>
      simp only [hm] at h
      obtain ⟨h1, h2⟩ := ih _ _ h
      exact ⟨by simp [h1, hm], h2⟩
    | none =>
      simp only [hm] at h
      cases hc : repoCommitToMissing rc with
      | none => simp [hc] at h
      | some mc =>
        simp only [hc] at h
        obtain ⟨h1, h2⟩ := ih _ _ h
        obtain ⟨hs, hp⟩ := repoCommitToMissing_some rc mc hc
        refine ⟨by simp [h1, hm, hs], fun x hx => ?_⟩
        rcases h2 x hx with hx | hx
        · rcases List.mem_append.mp hx with hx | hx
          · exact Or.inl hx
          · rw [List.mem_singleton] at hx
            exact Or.inr (hx ▸ hp)
        · exact Or.inr hx

theorem withoutLabelLoop_isSome (m : GoMap Unit) (D : List RepositoryCommit) :
    ∀ (acc : List MissingCommit),
      (withoutLabelLoop m D acc).isSome = true ↔
        ∀ rc ∈ D, (m rc.SHA).isSome = false → rc.AuthorDate.isSome = true := by
  induction D with
  | nil => intro acc; simp [withoutLabelLoop]
  | cons rc rest ih =>
    intro acc
    unfold withoutLabelLoop
    cases hm : m rc.SHA with
    | some u => simp [ih, hm]
    | none =>
      have := repoCommitToMissing_isSome rc
      cases hc : repoCommitToMissing rc with
      | none =>
        rw [hc] at this
        simp [hm, ← this]
      | some mc =>
        rw [hc] at this
        simp [ih, hm, ← this]

theorem finish_returned (r : Option (List MissingCommit)) (W : List MissingCommit)
    (err : Option GoError) (h : finish r = .returned W err) : r = some W ∧ err = none := by
  cases r with
  | none => simp [finish] at h
  | some c =>
    simp only [finish, Outcome.returned.injEq] at h
    exact ⟨by rw [h.1], h.2.symm⟩

theorem length_filter_add_length_filter_not (p : String → Bool) (l : List String) :
    (l.filter p).length + (l.filter (fun s => !p s)).length = l.length := by
  induction l with
  | nil => rfl
  | cons a t ih =>
    cases h : p a <;> simp [List.filter_cons, h] <;> omega

/-! ## The filtered modes (`ListMissingCommitsWithLabel`, `ListMissingCommitsWithoutLabel`) -/

theorem ListMissingCommitsWithLabel_outcome (g : GitHub) (owner repo releaseBranch label : String)
    (P : List PullRequest) (D : List RepositoryCommit)
    (hP : (listMergedPRsWithLabel g owner repo label).outcome = .returned P none)
    (hD : (compareBranches g owner repo releaseBranch "main").outcome = .returned D none) :
    (ListMissingCommitsWithLabel g owner repo releaseBranch label).outcome =
      finish (withLabelLoop (buildPRBySHA P) D []) := by
  unfold ListMissingCommitsWithLabel
  simp only [hP, hD]

theorem ListMissingCommitsWithoutLabel_outcome (g : GitHub)
    (owner repo releaseBranch label : String)
    (P : List PullRequest) (D : List RepositoryCommit)
    (hP : (listMergedPRsWithLabel g owner repo label).outcome = .returned P none)
    (hD : (compareBranches g owner repo releaseBranch "main").outcome = .returned D none) :
    (ListMissingCommitsWithoutLabel g owner repo releaseBranch label).outcome =
      finish (withoutLabelLoop (buildLabeledSHAs P) D []) := by
  unfold ListMissingCommitsWithoutLabel
  simp only [hP, hD]

theorem withLabel_shas (P : List PullRequest) (D : List RepositoryCommit)
    (W : List MissingCommit) (h : withLabelLoop (buildPRBySHA P) D [] = some W) :
    W.map (fun mc => mc.SHA) =
      (D.map (fun rc => rc.SHA)).filter
        (fun s => decide (s ∈ P.map (fun pr => pr.MergeCommitSHA))) := by
  have h1 := (withLabelLoop_some _ D [] W h).1
  simp only [List.map_nil, List.nil_append, buildPRBySHA_isSome] at h1
  exact h1

theorem withoutLabel_shas (P : List PullRequest) (D : List RepositoryCommit)
    (X : List MissingCommit) (h : withoutLabelLoop (buildLabeledSHAs P) D [] = some X) :
    X.map (fun mc => mc.SHA) =
      (D.map (fun rc => rc.SHA)).filter
        (fun s => !decide (s ∈ P.map (fun pr => pr.MergeCommitSHA))) := by
  have h1 := (withoutLabelLoop_some _ D [] X h).1
  simp only [List.map_nil, List.nil_append, buildLabeledSHAs_isSome] at h1
  exact h1

/-- Partition, for calls that return.  Whenever the labelled pull requests
fetched are `P` and the diff is `D` in both calls, the list `W` returned by
`ListMissingCommitsWithLabel` and the list `X` returned by
`ListMissingCommitsWithoutLabel` partition `D` by commit identifier: no SHA is in
both, a SHA is in one of them exactly when it is in `D`, and the two lengths add
up to the length of `D`.  Both calls do return when every commit of `D` carries
an author date. -/
theorem withLabel_withoutLabel_partition (g₁ g₂ : GitHub)
    (owner repo releaseBranch label : String)
    (P : List PullRequest) (D : List RepositoryCommit)
    (hP₁ : (listMergedPRsWithLabel g₁ owner repo label).outcome = .returned P none)
    (hD₁ : (compareBranches g₁ owner repo releaseBranch "main").outcome = .returned D none)
    (hP₂ : (listMergedPRsWithLabel g₂ owner repo label).outcome = .returned P none)
    (hD₂ : (compareBranches g₂ owner repo releaseBranch "main").outcome = .returned D none) :
    ((∀ rc ∈ D, rc.AuthorDate.isSome = true) →
      ∃ W X,
        (ListMissingCommitsWithLabel g₁ owner repo releaseBranch label).outcome =
          .returned W none ∧
        (ListMissingCommitsWithoutLabel g₂ owner repo releaseBranch label).outcome =
          .returned X none) ∧
    (∀ W X,
      (ListMissingCommitsWithLabel g₁ owner repo releaseBranch label).outcome =
        .returned W none →
      (ListMissingCommitsWithoutLabel g₂ owner repo releaseBranch label).outcome =
        .returned X none →
      (∀ s, ¬ (s ∈ W.map (fun mc => mc.SHA) ∧ s ∈ X.map (fun mc => mc.SHA))) ∧
      (∀ s, (s ∈ W.map (fun mc => mc.SHA) ∨ s ∈ X.map (fun mc => mc.SHA)) ↔
        s ∈ D.map (fun rc => rc.SHA)) ∧
      W.length + X.length = D.length) := by
  rw [ListMissingCommitsWithLabel_outcome g₁ owner repo releaseBranch label P D hP₁ hD₁,
    ListMissingCommitsWithoutLabel_outcome g₂ owner repo releaseBranch label P D hP₂ hD₂]
  constructor
  · intro hdate
    have hw : (withLabelLoop (buildPRBySHA P) D []).isSome = true := by
      rw [withLabelLoop_isSome]
      exact fun rc hrc _ => hdate rc hrc
    have hx : (withoutLabelLoop (buildLabeledSHAs P) D []).isSome = true := by
      rw [withoutLabelLoop_isSome]
      exact fun rc hrc _ => hdate rc hrc
    obtain ⟨W, hW⟩ := Option.isSome_iff_exists.mp hw
    obtain ⟨X, hX⟩ := Option.isSome_iff_exists.mp hx
    exact ⟨W, X, by rw [hW]; rfl, by rw [hX]; rfl⟩
  · intro W X hW hX
    have hw := withLabel_shas P D W (finish_returned _ _ _ hW).1
    have hx := withoutLabel_shas P D X (finish_returned _ _ _ hX).1
    refine ⟨?_, ?_, ?_⟩
    · intro s ⟨h1, h2⟩
      rw [hw, List.mem_filter] at h1
      rw [hx, List.mem_filter] at h2
      have h3 := h2.2
      rw [h1.2] at h3
      exact Bool.noConfusion h3
    · intro s
      rw [hw, hx, List.mem_filter, List.mem_filter]
      by_cases hs : s ∈ P.map (fun pr => pr.MergeCommitSHA) <;> simp [hs]
    · have hl := length_filter_add_length_filter_not
        (fun s => decide (s ∈ P.map (fun pr => pr.MergeCommitSHA))) (D.map (fun rc => rc.SHA))
      rw [← hw, ← hx] at hl
      simpa using hl

/-- The partition at the scenario of the specification: `[a2]` and `[a1, a3]`
partition `[a1, a2, a3]`. -/
theorem withLabel_withoutLabel_partition_witness :
    (∀ s, ¬ (s ∈ [exampleMissing "a2" [⟨7, "a2"⟩]].map (fun mc => mc.SHA) ∧
      s ∈ [exampleMissing "a1" [], exampleMissing "a3" []].map (fun mc => mc.SHA))) ∧
    (∀ s, (s ∈ [exampleMissing "a2" [⟨7, "a2"⟩]].map (fun mc => mc.SHA) ∨
        s ∈ [exampleMissing "a1" [], exampleMissing "a3" []].map (fun mc => mc.SHA)) ↔
      s ∈ [exampleCommit "a1", exampleCommit "a2", exampleCommit "a3"].map
        (fun rc => rc.SHA)) ∧
    [exampleMissing "a2" [⟨7, "a2"⟩]].length +
      [exampleMissing "a1" [], exampleMissing "a3" []].length =
      [exampleCommit "a1", exampleCommit "a2", exampleCommit "a3"].length :=
  (withLabel_withoutLabel_partition exampleGitHub exampleGitHub "o" "r" "v1.2" "backport"
    [⟨7, "a2"⟩] [exampleCommit "a1", exampleCommit "a2", exampleCommit "a3"]
    (by decide) (by decide) (by decide) (by decide)).2
    [exampleMissing "a2" [⟨7, "a2"⟩]] [exampleMissing "a1" [], exampleMissing "a3" []]
    (by decide) (by decide)

/-- With-label filtering never reorders, for a call that returns.  With `P` the
labelled pull requests fetched and `D` the diff, whatever `ListMissingCommitsWithLabel` returns comes
with a nil error and its SHA sequence is the SHA sequence of `D` filtered, order
kept, to the merge-commit SHAs of `P`.  The call does return when every commit
of `D` that is kept carries an author date (`repoCommitToMissing` dereferences
it). -/
theorem withLabel_keeps_diff_order (g : GitHub) (owner repo releaseBranch label : String)
    (P : List PullRequest) (D : List RepositoryCommit)
    (hP : (listMergedPRsWithLabel g owner repo label).outcome = .returned P none)
    (hD : (compareBranches g owner repo releaseBranch "main").outcome = .returned D none) :
    ((∀ rc ∈ D, rc.SHA ∈ P.map (fun pr => pr.MergeCommitSHA) → rc.AuthorDate.isSome = true) →
      ∃ W, (ListMissingCommitsWithLabel g owner repo releaseBranch label).outcome =
        .returned W none) ∧
    (∀ W err, (ListMissingCommitsWithLabel g owner repo releaseBranch label).outcome =
        .returned W err →
      err = none ∧
      W.map (fun mc => mc.SHA) =
        (D.map (fun rc => rc.SHA)).filter
          (fun s => decide (s ∈ P.map (fun pr => pr.MergeCommitSHA)))) := by
  rw [ListMissingCommitsWithLabel_outcome g owner repo releaseBranch label P D hP hD]
  constructor
  · intro hdate
    have hs : (withLabelLoop (buildPRBySHA P) D []).isSome = true := by
      rw [withLabelLoop_isSome]
      intro rc hrc hm
      rw [buildPRBySHA_isSome, decide_eq_true_eq] at hm
      exact hdate rc hrc hm
    obtain ⟨W, hW⟩ := Option.isSome_iff_exists.mp hs
    exact ⟨W, by rw [hW]; rfl⟩
  · intro W err h
    obtain ⟨h1, h2⟩ := finish_returned _ _ _ h
    exact ⟨h2, withLabel_shas P D W h1⟩

/-- With-label mode at the scenario of the specification: the diff
`[a1, a2, a3]` with only `a2` labelled gives exactly `[a2]`. -/
theorem withLabel_keeps_diff_order_witness :
    ∃ W, (ListMissingCommitsWithLabel exampleGitHub "o" "r" "v1.2" "backport").outcome =
        .returned W none ∧
      W.map (fun mc => mc.SHA) = ["a2"] :=
  ⟨[exampleMissing "a2" [⟨7, "a2"⟩]], by decide,
    ((withLabel_keeps_diff_order exampleGitHub "o" "r" "v1.2" "backport" [⟨7, "a2"⟩]
      [exampleCommit "a1", exampleCommit "a2", exampleCommit "a3"] (by decide) (by decide)).2
        _ none (by decide)).2.trans (by decide)⟩

/-- Without-label mode, for a call that returns.  With `P` the labelled pull
requests fetched and `D` the diff, whatever `ListMissingCommitsWithoutLabel` returns comes with a nil
error, its SHA sequence is the SHA sequence of `D` filtered, order kept, to the
SHAs that are the merge-commit SHA of no pull request of `P`, and every returned
commit has an empty `PRs` list.  The call does return when every commit of `D`
that is kept carries an author date. -/
theorem withoutLabel_keeps_unlabelled_in_order (g : GitHub)
    (owner repo releaseBranch label : String)
    (P : List PullRequest) (D : List RepositoryCommit)
    (hP : (listMergedPRsWithLabel g owner repo label).outcome = .returned P none)
    (hD : (compareBranches g owner repo releaseBranch "main").outcome = .returned D none) :
    ((∀ rc ∈ D, rc.SHA ∉ P.map (fun pr => pr.MergeCommitSHA) → rc.AuthorDate.isSome = true) →
      ∃ X, (ListMissingCommitsWithoutLabel g owner repo releaseBranch label).outcome =
        .returned X none) ∧
    (∀ X err, (ListMissingCommitsWithoutLabel g owner repo releaseBranch label).outcome =
        .returned X err →
      err = none ∧
      X.map (fun mc => mc.SHA) =
        (D.map (fun rc => rc.SHA)).filter
          (fun s => !decide (s ∈ P.map (fun pr => pr.MergeCommitSHA))) ∧
      ∀ mc ∈ X, mc.PRs = []) := by
  rw [ListMissingCommitsWithoutLabel_outcome g owner repo releaseBranch label P D hP hD]
  constructor
  · intro hdate
    have hs : (withoutLabelLoop (buildLabeledSHAs P) D []).isSome = true := by
      rw [withoutLabelLoop_isSome]
      intro rc hrc hm
      rw [buildLabeledSHAs_isSome, decide_eq_false_iff_not] at hm
      exact hdate rc hrc hm
    obtain ⟨X, hX⟩ := Option.isSome_iff_exists.mp hs
    exact ⟨X, by rw [hX]; rfl⟩
  · intro X err h
    obtain ⟨h1, h2⟩ := finish_returned _ _ _ h
    refine ⟨h2, withoutLabel_shas P D X h1, fun mc hmc => ?_⟩
    rcases (withoutLabelLoop_some _ D [] X h1).2 mc hmc with hx | hx
    · exact absurd hx (List.not_mem_nil mc)
    · exact hx

/-- Without-label mode at the scenario of the specification: the diff
`[a1, a2, a3]` with only `a2` labelled gives exactly `[a1, a3]`, with no pull
request attached. -/
theorem withoutLabel_keeps_unlabelled_in_order_witness :
    ∃ X, (ListMissingCommitsWithoutLabel exampleGitHub "o" "r" "v1.2" "backport").outcome =
        .returned X none ∧
      X.map (fun mc => mc.SHA) = ["a1", "a3"] ∧ ∀ mc ∈ X, mc.PRs = [] :=
  ⟨[exampleMissing "a1" [], exampleMissing "a3" []], by decide,
    ((withoutLabel_keeps_unlabelled_in_order exampleGitHub "o" "r" "v1.2" "backport"
      [⟨7, "a2"⟩] [exampleCommit "a1", exampleCommit "a2", exampleCommit "a3"]
      (by decide) (by decide)).2 _ none (by decide)).2.1.trans (by decide),
    ((withoutLabel_keeps_unlabelled_in_order exampleGitHub "o" "r" "v1.2" "backport"
      [⟨7, "a2"⟩] [exampleCommit "a1", exampleCommit "a2", exampleCommit "a3"]
      (by decide) (by decide)).2 _ none (by decide)).2.2⟩

/-- C1, the failing input: the diff is `[a1, a2]` with `a1` carrying no author
date, and the labelled pull requests are `[#7 merged as a2]`, fetched alike by
both calls.  `ListMissingCommitsWithLabel` returns `[a2]`, but
`ListMissingCommitsWithoutLabel` panics in `repoCommitToMissing` on `a1`: it
returns no list, so there is no `X` that, with `W = [a2]`, partitions the diff. -/
theorem partition_lost_without_author_date :
    (listMergedPRsWithLabel exampleGitHubUndatedUnlabelled "o" "r" "backport").outcome =
        .returned [⟨7, "a2"⟩] none ∧
      (compareBranches exampleGitHubUndatedUnlabelled "o" "r" "v1.2" "main").outcome =
        .returned [exampleUndatedCommit "a1", exampleCommit "a2"] none ∧
      (ListMissingCommitsWithLabel exampleGitHubUndatedUnlabelled "o" "r" "v1.2"
          "backport").outcome = .returned [exampleMissing "a2" [⟨7, "a2"⟩]] none ∧
      (ListMissingCommitsWithoutLabel exampleGitHubUndatedUnlabelled "o" "r" "v1.2"
          "backport").outcome = .panicked ∧
      ¬ ∃ X err, (ListMissingCommitsWithoutLabel exampleGitHubUndatedUnlabelled "o" "r" "v1.2"
          "backport").outcome = .returned X err := by
  refine ⟨by decide, by decide, by decide, by decide, ?_⟩
  rintro ⟨X, err, h⟩
  have hp : (ListMissingCommitsWithoutLabel exampleGitHubUndatedUnlabelled "o" "r" "v1.2"
      "backport").outcome = .panicked := by decide
  rw [hp] at h
  exact Outcome.noConfusion h

/-- C2, the failing input: the diff is `[a1, a2]` with `a1` carrying no author
date, and the labelled pull requests are `[#7 merged as a1]`.  The SHAs of the
diff that are a merge-commit SHA of a labelled pull request are `[a1]`, but
`ListMissingCommitsWithLabel` panics in `repoCommitToMissing` on `a1`, after the
search, the detail fetch and the compare page, instead of returning `[a1]`. -/
theorem withLabel_panics_without_author_date :
    (listMergedPRsWithLabel exampleGitHubUndatedLabelled "o" "r" "backport").outcome =
        .returned [⟨7, "a1"⟩] none ∧
      (compareBranches exampleGitHubUndatedLabelled "o" "r" "v1.2" "main").outcome =
        .returned [exampleUndatedCommit "a1", exampleCommit "a2"] none ∧
      ([exampleUndatedCommit "a1", exampleCommit "a2"].map (fun rc => rc.SHA)).filter
          (fun s => decide (s ∈ ([⟨7, "a1"⟩] : List PullRequest).map
            (fun pr => pr.MergeCommitSHA))) = ["a1"] ∧
      ListMissingCommitsWithLabel exampleGitHubUndatedLabelled "o" "r" "v1.2" "backport" =
        ⟨.panicked,
          [⟨.searchIssues "repo:o/r is:pr is:merged label:backport" "created" "desc" 1 100, none⟩,
           ⟨.getPullRequest "o" "r" 7, none⟩,
           ⟨.compareCommits "o" "r" "v1.2" "main" 1 100, none⟩]⟩ := by
  decide

/-- C3, the failing input: the diff is `[a1, a2]` with `a1` carrying no author
date, and the labelled pull requests are `[#7 merged as a2]`.  The SHAs of the
diff that are the merge-commit SHA of no labelled pull request are `[a1]`, but
`ListMissingCommitsWithoutLabel` panics in `repoCommitToMissing` on `a1`, after
the search, the detail fetch and the compare page, instead of returning `[a1]`. -/
theorem withoutLabel_panics_without_author_date :
    (listMergedPRsWithLabel exampleGitHubUndatedUnlabelled "o" "r" "backport").outcome =
        .returned [⟨7, "a2"⟩] none ∧
      (compareBranches exampleGitHubUndatedUnlabelled "o" "r" "v1.2" "main").outcome =
        .returned [exampleUndatedCommit "a1", exampleCommit "a2"] none ∧
      ([exampleUndatedCommit "a1", exampleCommit "a2"].map (fun rc => rc.SHA)).filter
          (fun s => !decide (s ∈ ([⟨7, "a2"⟩] : List PullRequest).map
            (fun pr => pr.MergeCommitSHA))) = ["a1"] ∧
      ListMissingCommitsWithoutLabel exampleGitHubUndatedUnlabelled "o" "r" "v1.2" "backport" =
        ⟨.panicked,
          [⟨.searchIssues "repo:o/r is:pr is:merged label:backport" "created" "desc" 1 100, none⟩,
           ⟨.getPullRequest "o" "r" 7, none⟩,
           ⟨.compareCommits "o" "r" "v1.2" "main" 1 100, none⟩]⟩ := by
  decide

/-- C4 (with-label annotation).  With `P` the labelled pull requests fetched and
`D` the diff, every commit that `ListMissingCommitsWithLabel` returns carries
exactly one pull request, whose merge-commit SHA is the commit's SHA, and it is
the last pull request of `P`, in fetch order, with that merge-commit SHA. -/
theorem withLabel_attaches_last_pull_request (g : GitHub)
    (owner repo releaseBranch label : String)
    (P : List PullRequest) (D : List RepositoryCommit)
    (W : List MissingCommit) (err : Option GoError)
    (hP : (listMergedPRsWithLabel g owner repo label).outcome = .returned P none)
    (hD : (compareBranches g owner repo releaseBranch "main").outcome = .returned D none)
    (hW : (ListMissingCommitsWithLabel g owner repo releaseBranch label).outcome =
      .returned W err) :
    ∀ mc ∈ W, ∃ pr, mc.PRs = [pr] ∧ pr.MergeCommitSHA = mc.SHA ∧
      (P.filter (fun q => q.MergeCommitSHA = mc.SHA)).getLast? = some pr := by
  rw [ListMissingCommitsWithLabel_outcome g owner repo releaseBranch label P D hP hD] at hW
  obtain ⟨h1, _⟩ := finish_returned _ _ _ hW
  intro mc hmc
  rcases (withLabelLoop_some _ D [] W h1).2 mc hmc with hx | ⟨pr, hm, hprs⟩
  · exact absurd hx (List.not_mem_nil mc)
  · rw [buildPRBySHA_apply] at hm
    have hmem := List.mem_of_getLast?_eq_some hm
    rw [List.mem_filter, decide_eq_true_eq] at hmem
    exact ⟨pr, hprs, hmem.2, hm⟩

/-- C4 where pull requests 7 and 9 are both recorded as merged by `a2`: the
commit `a2` carries pull request 9 alone, the later one fetched. -/
theorem withLabel_attaches_last_pull_request_witness :
    ∃ pr, (exampleMissing "a2" [⟨9, "a2"⟩]).PRs = [pr] ∧
      pr.MergeCommitSHA = (exampleMissing "a2" [⟨9, "a2"⟩]).SHA ∧
      (([⟨7, "a2"⟩, ⟨9, "a2"⟩] : List PullRequest).filter
        (fun q => q.MergeCommitSHA = (exampleMissing "a2" [⟨9, "a2"⟩]).SHA)).getLast? =
          some pr :=
  withLabel_attaches_last_pull_request exampleGitHubTwoPRs "o" "r" "v1.2" "backport"
    [⟨7, "a2"⟩, ⟨9, "a2"⟩] [exampleCommit "a1", exampleCommit "a2", exampleCommit "a3"]
    [exampleMissing "a2" [⟨9, "a2"⟩]] none (by decide) (by decide) (by decide)
    (exampleMissing "a2" [⟨9, "a2"⟩]) (List.mem_singleton_self _)

/-! ## Pagination of the diff (`compareBranches`, `ListMissingCommits`) -/

theorem compareLoop_chain (owner repo base head : String) (init : List ComparePage) :
    ∀ (last : ComparePage) (rest : List (Except GoError ComparePage)) (page : Int)
      (acc : List RepositoryCommit),
      (∀ p ∈ init, p.NextPage ≠ 0) → last.NextPage = 0 →
      compareLoop owner repo base head ((init ++ [last]).map .ok ++ rest) page acc =
        ⟨.returned (acc ++ (init ++ [last]).flatMap (fun p => p.Commits)) none,
          (page :: init.map (fun p => p.NextPage)).map
            (fun n => ⟨.compareCommits owner repo base head n 100, none⟩)⟩ := by
  induction init with
  | nil =>
    intro last rest page acc _ hlast
    simp [compareLoop, hlast]
  | cons p init ih =>
    intro last rest page acc hinit hlast
    have hp : p.NextPage ≠ 0 := hinit p (List.mem_cons_self _ _)
    have hrest : ∀ q ∈ init, q.NextPage ≠ 0 := fun q hq => hinit q (List.mem_cons_of_mem _ hq)
    have := ih last rest p.NextPage (acc ++ p.Commits) hrest hlast
    rw [List.cons_append, List.map_cons, List.cons_append, compareLoop]
    simp only [hp, if_false, this]
    simp [List.append_assoc]

/-- Order preservation of `compareBranches`: over a chain of successful pages
`init ++ [last]` of which only the last reports `NextPage = 0`, it requests page
1 and then each page's `NextPage`, nothing more, and returns the pages' commits
concatenated in page order. -/
theorem compareBranches_concatenates_pages (compare rest : List (Except GoError ComparePage))
    (search : List (Except GoError SearchPage)) (pulls : List (Except GoError PullRequest))
    (owner repo base head : String) (init : List ComparePage) (last : ComparePage)
    (hscript : compare = (init ++ [last]).map .ok ++ rest)
    (hinit : ∀ p ∈ init, p.NextPage ≠ 0) (hlast : last.NextPage = 0) :
    compareBranches ⟨compare, search, pulls⟩ owner repo base head =
      ⟨.returned ((init ++ [last]).flatMap (fun p => p.Commits)) none,
        (1 :: init.map (fun p => p.NextPage)).map
          (fun n => ⟨.compareCommits owner repo base head n 100, none⟩)⟩ := by
  subst hscript
  unfold compareBranches
  rw [compareLoop_chain owner repo base head init last rest 1 [] hinit hlast]
  simp

/-- Order preservation of `ListMissingCommits` when every commit of the chain
carries an author date: one commit per element of the concatenation, same SHA
at the same position, no pull request attached. -/
theorem ListMissingCommits_of_dated_pages (compare rest : List (Except GoError ComparePage))
    (search : List (Except GoError SearchPage)) (pulls : List (Except GoError PullRequest))
    (owner repo releaseBranch : String) (init : List ComparePage) (last : ComparePage)
    (hscript : compare = (init ++ [last]).map .ok ++ rest)
    (hinit : ∀ p ∈ init, p.NextPage ≠ 0) (hlast : last.NextPage = 0)
    (hdate : ∀ p ∈ init ++ [last], ∀ rc ∈ p.Commits, rc.AuthorDate.isSome = true) :
    ∃ W, (ListMissingCommits ⟨compare, search, pulls⟩ owner repo releaseBranch).outcome =
        .returned W none ∧
      W.map (fun mc => mc.SHA) =
        ((init ++ [last]).flatMap (fun p => p.Commits)).map (fun rc => rc.SHA) ∧
      W.length = ((init ++ [last]).flatMap (fun p => p.Commits)).length ∧
      ∀ mc ∈ W, mc.PRs = [] := by
  have hc := compareBranches_concatenates_pages compare rest search pulls owner repo
    releaseBranch "main" init last hscript hinit hlast
  have hs : (convertLoop ((init ++ [last]).flatMap (fun p => p.Commits)) []).isSome = true := by
    rw [convertLoop_isSome]
    intro rc hrc
    obtain ⟨p, hp, hrcp⟩ := List.mem_flatMap.mp hrc
    exact hdate p hp rc hrcp
  obtain ⟨W, hW⟩ := Option.isSome_iff_exists.mp hs
  obtain ⟨h1, h2⟩ := convertLoop_some _ [] W hW
  simp only [List.map_nil, List.nil_append] at h1
  refine ⟨W, ?_, h1, ?_, fun mc hmc => ?_⟩
  · unfold ListMissingCommits
    simp only [hc, hW, finish]
  · have := congrArg List.length h1
    simpa using this
  · rcases h2 mc hmc with hx | hx
    · exact absurd hx (List.not_mem_nil mc)
    · exact hx

/-- Whatever `ListMissingCommits` returns over such a chain comes with a nil
error and has one commit per element of the concatenation, same SHA at the same
position, no pull request attached. -/
theorem ListMissingCommits_returned_of_pages (compare rest : List (Except GoError ComparePage))
    (search : List (Except GoError SearchPage)) (pulls : List (Except GoError PullRequest))
    (owner repo releaseBranch : String) (init : List ComparePage) (last : ComparePage)
    (W : List MissingCommit) (err : Option GoError)
    (hscript : compare = (init ++ [last]).map .ok ++ rest)
    (hinit : ∀ p ∈ init, p.NextPage ≠ 0) (hlast : last.NextPage = 0)
    (hW : (ListMissingCommits ⟨compare, search, pulls⟩ owner repo releaseBranch).outcome =
      .returned W err) :
    err = none ∧
      W.map (fun mc => mc.SHA) =
        ((init ++ [last]).flatMap (fun p => p.Commits)).map (fun rc => rc.SHA) ∧
      ∀ mc ∈ W, mc.PRs = [] := by
  have hc := compareBranches_concatenates_pages compare rest search pulls owner repo
    releaseBranch "main" init last hscript hinit hlast
  unfold ListMissingCommits at hW
  simp only [hc] at hW
  obtain ⟨h1, h2⟩ := finish_returned _ _ _ hW
  obtain ⟨h3, h4⟩ := convertLoop_some _ [] W h1
  simp only [List.map_nil, List.nil_append] at h3
  refine ⟨h2, h3, fun mc hmc => ?_⟩
  rcases h4 mc hmc with hx | hx
  · exact absurd hx (List.not_mem_nil mc)
  · exact hx

/-- C5, the failing input: the diff is one successful page, `NextPage = 0`, whose
only commit has no author date.  `compareBranches` returns that one commit, and
`ListMissingCommits` panics in `repoCommitToMissing` instead of returning one
commit with the same SHA. -/
theorem ListMissingCommits_panics_without_author_date :
    (compareBranches exampleGitHubNoDate "o" "r" "v1.2" "main").outcome =
        .returned [{ SHA := "a1", Message := "subject", AuthorName := "dev",
                     AuthorDate := none, HTMLURL := "" }] none ∧
      ListMissingCommits exampleGitHubNoDate "o" "r" "v1.2" =
        ⟨.panicked, [⟨.compareCommits "o" "r" "v1.2" "main" 1 100, none⟩]⟩ := by
  decide

/-! ## Fail-fast resolution -/

theorem split_append {α : Type} (a : List α) :
    ∀ (b pre post : List α) (x : α), a ++ b = pre ++ x :: post →
      (∃ post₁, a = pre ++ x :: post₁) ∨ (∃ pre₁, pre = a ++ pre₁ ∧ b = pre₁ ++ x :: post) := by
  induction a with
  | nil => intro b pre post x h; exact Or.inr ⟨pre, rfl, h⟩
  | cons y a ih =>
    intro b pre post x h
    cases pre with
    | nil =>
      simp only [List.cons_append, List.nil_append, List.cons.injEq] at h
      exact Or.inl ⟨a, by simp [h.1]⟩
    | cons z pre =>
      simp only [List.cons_append, List.cons.injEq] at h
      rcases ih b pre post x h.2 with ⟨post₁, h1⟩ | ⟨pre₁, h1, h2⟩
      · exact Or.inl ⟨post₁, by simp [h.1, h1]⟩
      · exact Or.inr ⟨pre₁, by simp [h.1, h1], h2⟩

theorem compareLoop_fail (owner repo base head : String)
    (script : List (Except GoError ComparePage)) :
    ∀ (page : Int) (acc : List RepositoryCommit) (pre : List Call) (c : Call)
      (post : List Call) (e : GoError),
      (compareLoop owner repo base head script page acc).calls = pre ++ c :: post →
      c.err = some e →
      post = [] ∧
      (compareLoop owner repo base head script page acc).outcome = .returned [] (some e) ∧
      ∃ pg, c.req = .compareCommits owner repo base head pg 100 := by
  induction script with
  | nil =>
    intro page acc pre c post e h
    simp [compareLoop] at h
  | cons r rest ih =>
    intro page acc pre c post e h he
    cases r with
    | error err =>
      simp only [compareLoop] at h ⊢
      cases pre with
      | nil =>
        simp only [List.nil_append, List.cons.injEq] at h
        obtain ⟨h1, h2⟩ := h
        subst h1
        simp only [Option.some.injEq] at he
        subst he
        exact ⟨h2.symm, rfl, page, rfl⟩
      | cons x pre => simp at h
    | ok comp =>
      rw [compareLoop] at h ⊢
      by_cases hn : comp.NextPage = 0
      · simp only [hn, if_true] at h
        cases pre with
        | nil =>
          simp only [List.nil_append, List.cons.injEq] at h
          rw [← h.1] at he
          simp at he
        | cons x pre => simp at h
      · simp only [hn, if_false] at h ⊢
        cases pre with
        | nil =>
          simp only [List.nil_append, List.cons.injEq] at h
          rw [← h.1] at he
          simp at he
        | cons x pre =>
          simp only [List.cons_append, List.cons.injEq] at h
          exact ih _ _ pre c post e h.2 he

theorem detailLoop_fail (owner repo : String) (issues : List Issue) :
    ∀ (pulls : List (Except GoError PullRequest)) (acc : List PullRequest) (pre : List Call)
      (c : Call) (post : List Call) (e : GoError),
      (detailLoop owner repo issues pulls acc).calls = pre ++ c :: post →
      c.err = some e →
      post = [] ∧
      ∃ n, c.req = .getPullRequest owner repo n ∧
        (detailLoop owner repo issues pulls acc).result =
          .error (.returned [] (some (.wrapf "getting PR #%d: %w" [.int n] e))) := by
  induction issues with
  | nil =>
    intro pulls acc pre c post e h
    simp [detailLoop] at h
  | cons issue issues ih =>
    intro pulls acc pre c post e h he
    cases pulls with
    | nil => simp [detailLoop] at h
    | cons r pulls =>
      cases r with
      | error err =>
        simp only [detailLoop] at h ⊢
        cases pre with
        | nil =>
          simp only [List.nil_append, List.cons.injEq] at h
          obtain ⟨h1, h2⟩ := h
          subst h1
          simp only [Option.some.injEq] at he
          subst he
          exact ⟨h2.symm, issue.Number, rfl, rfl⟩
        | cons x pre => simp at h
      | ok pr =>
        simp only [detailLoop] at h ⊢
        cases pre with
        | nil =>
          simp only [List.nil_append, List.cons.injEq] at h
          rw [← h.1] at he
          simp at he
        | cons x pre =>
          simp only [List.cons_append, List.cons.injEq] at h
          exact ih _ _ pre c post e h.2 he

theorem searchLoop_fail (owner repo query : String)
    (script : List (Except GoError SearchPage)) :
    ∀ (pulls : List (Except GoError PullRequest)) (page : Int) (acc : List PullRequest)
      (pre : List Call) (c : Call) (post : List Call) (e : GoError),
      (searchLoop owner repo query script pulls page acc).calls = pre ++ c :: post →
      c.err = some e →
      post = [] ∧
      ((∃ pg, c.req = .searchIssues query "created" "desc" pg 100 ∧
          (searchLoop owner repo query script pulls page acc).outcome =
            .returned [] (some e)) ∨
       (∃ n, c.req = .getPullRequest owner repo n ∧
          (searchLoop owner repo query script pulls page acc).outcome =
            .returned [] (some (.wrapf "getting PR #%d: %w" [.int n] e)))) := by
  induction script with
  | nil =>
    intro pulls page acc pre c post e h
    simp [searchLoop] at h
  | cons r rest ih =>
    intro pulls page acc pre c post e h he
    cases r with
    | error err =>
      simp only [searchLoop] at h ⊢
      cases pre with
      | nil =>
        simp only [List.nil_append, List.cons.injEq] at h
        obtain ⟨h1, h2⟩ := h
        subst h1
        simp only [Option.some.injEq] at he
        subst he
        exact ⟨h2.symm, Or.inl ⟨page, rfl, rfl⟩⟩
      | cons x pre => simp at h
    | ok result =>
      rw [searchLoop] at h ⊢
      simp only at h ⊢
      cases hd : (detailLoop owner repo result.Issues pulls acc).result with
      | error o =>
        simp only [hd] at h ⊢
        cases pre with
        | nil =>
          simp only [List.nil_append, List.cons.injEq] at h
          rw [← h.1] at he
          simp at he
        | cons x pre =>
          simp only [List.cons_append, List.cons.injEq] at h
          obtain ⟨hp, n, hreq, hres⟩ := detailLoop_fail owner repo result.Issues pulls acc
            pre c post e h.2 he
          rw [hd] at hres
          simp only [Except.error.injEq] at hres
          exact ⟨hp, Or.inr ⟨n, hreq, hres⟩⟩
      | ok allPRs =>
        simp only [hd] at h ⊢
        by_cases hn : result.NextPage = 0
        · simp only [hn, if_true] at h
          cases pre with
          | nil =>
            simp only [List.nil_append, List.cons.injEq] at h
            rw [← h.1] at he
            simp at he
          | cons x pre =>
            simp only [List.cons_append, List.cons.injEq] at h
            obtain ⟨_, n, _, hres⟩ := detailLoop_fail owner repo result.Issues pulls acc
              pre c post e h.2 he
            rw [hd] at hres
            simp at hres
        · simp only [hn, if_false] at h ⊢
          cases pre with
          | nil =>
            simp only [List.nil_append, List.cons.injEq] at h
            rw [← h.1] at he
            simp at he
          | cons x pre =>
            simp only [List.cons_append, List.cons.injEq] at h
            rcases split_append _ _ pre post c h.2 with ⟨post₁, h1⟩ | ⟨pre₁, _, h2⟩
            · obtain ⟨_, n, _, hres⟩ := detailLoop_fail owner repo result.Issues pulls acc
                pre c post₁ e h1 he
              rw [hd] at hres
              simp at hres
            · exact ih _ _ _ pre₁ c post e h2 he

theorem compareBranches_fail (g : GitHub) (owner repo base head : String)
    (pre : List Call) (c : Call) (post : List Call) (e : GoError)
    (h : (compareBranches g owner repo base head).calls = pre ++ c :: post)
    (he : c.err = some e) :
    post = [] ∧ (compareBranches g owner repo base head).outcome = .returned [] (some e) ∧
      ∃ pg, c.req = .compareCommits owner repo base head pg 100 :=
  compareLoop_fail owner repo base head g.compare 1 [] pre c post e h he

theorem listMergedPRsWithLabel_fail (g : GitHub) (owner repo label : String)
    (pre : List Call) (c : Call) (post : List Call) (e : GoError)
    (h : (listMergedPRsWithLabel g owner repo label).calls = pre ++ c :: post)
    (he : c.err = some e) :
    post = [] ∧
    ((∃ q pg, c.req = .searchIssues q "created" "desc" pg 100 ∧
        (listMergedPRsWithLabel g owner repo label).outcome = .returned [] (some e)) ∨
     (∃ n, c.req = .getPullRequest owner repo n ∧
        (listMergedPRsWithLabel g owner repo label).outcome =
          .returned [] (some (.wrapf "getting PR #%d: %w" [.int n] e)))) := by
  obtain ⟨hp, h1 | h1⟩ := searchLoop_fail owner repo _ g.search g.pulls 1 [] pre c post e h he
  · obtain ⟨pg, hreq, hout⟩ := h1
    exact ⟨hp, Or.inl ⟨_, pg, hreq, hout⟩⟩
  · exact ⟨hp, Or.inr h1⟩

theorem ListMissingCommits_fail (g : GitHub) (owner repo releaseBranch : String)
    (pre : List Call) (c : Call) (post : List Call) (e : GoError)
    (h : (ListMissingCommits g owner repo releaseBranch).calls = pre ++ c :: post)
    (he : c.err = some e) :
    post = [] ∧ (ListMissingCommits g owner repo releaseBranch).outcome =
      .returned [] (some (.wrapf "comparing branches: %w" [] e)) := by
  have hcalls : (ListMissingCommits g owner repo releaseBranch).calls =
      (compareBranches g owner repo releaseBranch "main").calls := by
    unfold ListMissingCommits
    simp only
    split <;> rfl
  rw [hcalls] at h
  obtain ⟨hp, hout, _⟩ := compareBranches_fail g owner repo releaseBranch "main" pre c post e h he
  refine ⟨hp, ?_⟩
  unfold ListMissingCommits
  simp only [hout]

theorem ListMissingCommitsWithLabel_fail (g : GitHub) (owner repo releaseBranch label : String)
    (pre : List Call) (c : Call) (post : List Call) (e : GoError)
    (h : (ListMissingCommitsWithLabel g owner repo releaseBranch label).calls = pre ++ c :: post)
    (he : c.err = some e) :
    post = [] ∧ (ListMissingCommitsWithLabel g owner repo releaseBranch label).outcome =
      .returned [] (some (match c.req with
        | .compareCommits _ _ _ _ _ _ => .wrapf "comparing branches: %w" [] e
        | .searchIssues _ _ _ _ _ => .wrapf "listing PRs with label %q: %w" [.str label] e
        | .getPullRequest _ _ n =>
          .wrapf "listing PRs with label %q: %w" [.str label]
            (.wrapf "getting PR #%d: %w" [.int n] e))) := by
  have hlist := listMergedPRsWithLabel_fail g owner repo label
  have hcmp := compareBranches_fail g owner repo releaseBranch "main"
  unfold ListMissingCommitsWithLabel at h ⊢
  simp only at h ⊢
  cases hl : (listMergedPRsWithLabel g owner repo label).outcome with
  | returned P err =>
    cases err with
    | some err =>
      simp only [hl] at h ⊢
      obtain ⟨hp, h1 | h1⟩ := hlist pre c post e h he
      · obtain ⟨q, pg, hreq, hout⟩ := h1
        rw [hl] at hout
        simp only [Outcome.returned.injEq, Option.some.injEq] at hout
        refine ⟨hp, ?_⟩
        rw [hreq, hout.2]
      · obtain ⟨n, hreq, hout⟩ := h1
        rw [hl] at hout
        simp only [Outcome.returned.injEq, Option.some.injEq] at hout
        refine ⟨hp, ?_⟩
        rw [hreq, hout.2]
    | none =>
      simp only [hl] at h ⊢
      have hcalls : (listMergedPRsWithLabel g owner repo label).calls ++
            (compareBranches g owner repo releaseBranch "main").calls = pre ++ c :: post →
          ∃ pre₁, (compareBranches g owner repo releaseBranch "main").calls =
            pre₁ ++ c :: post := by
        intro hr2
        rcases split_append _ _ pre post c hr2 with ⟨post₁, h1⟩ | ⟨pre₁, _, h2⟩
        · obtain ⟨_, h3 | h3⟩ := hlist pre c post₁ e h1 he
          · obtain ⟨_, _, _, hout⟩ := h3
            rw [hl] at hout
            simp at hout
          · obtain ⟨_, _, hout⟩ := h3
            rw [hl] at hout
            simp at hout
        · exact ⟨pre₁, h2⟩
      cases hc : (compareBranches g owner repo releaseBranch "main").outcome with
      | returned D err =>
        cases err with
        | some err =>
          simp only [hc] at h ⊢
          obtain ⟨pre₁, h2⟩ := hcalls h
          obtain ⟨hp, hout, pg, hreq⟩ := hcmp pre₁ c post e h2 he
          rw [hc] at hout
          simp only [Outcome.returned.injEq, Option.some.injEq] at hout
          refine ⟨hp, ?_⟩
          rw [hreq, hout.2]
        | none =>
          simp only [hc] at h ⊢
          obtain ⟨pre₁, h2⟩ := hcalls h
          obtain ⟨_, hout, _⟩ := hcmp pre₁ c post e h2 he
          rw [hc] at hout
          simp at hout
      | panicked =>
        simp only [hc] at h ⊢
        obtain ⟨pre₁, h2⟩ := hcalls h
        obtain ⟨_, hout, _⟩ := hcmp pre₁ c post e h2 he
        rw [hc] at hout
        simp at hout
      | starved =>
        simp only [hc] at h ⊢
        obtain ⟨pre₁, h2⟩ := hcalls h
        obtain ⟨_, hout, _⟩ := hcmp pre₁ c post e h2 he
        rw [hc] at hout
        simp at hout
  | panicked =>
    simp only [hl] at h ⊢
    obtain ⟨_, h1 | h1⟩ := hlist pre c post e h he
    · obtain ⟨_, _, _, hout⟩ := h1
      rw [hl] at hout
      simp at hout
    · obtain ⟨_, _, hout⟩ := h1
      rw [hl] at hout
      simp at hout
  | starved =>
    simp only [hl] at h ⊢
    obtain ⟨_, h1 | h1⟩ := hlist pre c post e h he
    · obtain ⟨_, _, _, hout⟩ := h1
      rw [hl] at hout
      simp at hout
    · obtain ⟨_, _, hout⟩ := h1
      rw [hl] at hout
      simp at hout

theorem ListMissingCommitsWithoutLabel_fail (g : GitHub) (owner repo releaseBranch label : String)
    (pre : List Call) (c : Call) (post : List Call) (e : GoError)
    (h : (ListMissingCommitsWithoutLabel g owner repo releaseBranch label).calls = pre ++ c :: post)
    (he : c.err = some e) :
    post = [] ∧ (ListMissingCommitsWithoutLabel g owner repo releaseBranch label).outcome =
      .returned [] (some (match c.req with
        | .compareCommits _ _ _ _ _ _ => .wrapf "comparing branches: %w" [] e
        | .searchIssues _ _ _ _ _ => .wrapf "listing PRs with label %q: %w" [.str label] e
        | .getPullRequest _ _ n =>
          .wrapf "listing PRs with label %q: %w" [.str label]
            (.wrapf "getting PR #%d: %w" [.int n] e))) := by
  have hlist := listMergedPRsWithLabel_fail g owner repo label
  have hcmp := compareBranches_fail g owner repo releaseBranch "main"
  unfold ListMissingCommitsWithoutLabel at h ⊢
  simp only at h ⊢
  cases hl : (listMergedPRsWithLabel g owner repo label).outcome with
  | returned P err =>
    cases err with
    | some err =>
      simp only [hl] at h ⊢
      obtain ⟨hp, h1 | h1⟩ := hlist pre c post e h he
      · obtain ⟨q, pg, hreq, hout⟩ := h1
        rw [hl] at hout
        simp only [Outcome.returned.injEq, Option.some.injEq] at hout
        refine ⟨hp, ?_⟩
        rw [hreq, hout.2]
      · obtain ⟨n, hreq, hout⟩ := h1
        rw [hl] at hout
        simp only [Outcome.returned.injEq, Option.some.injEq] at hout
        refine ⟨hp, ?_⟩
        rw [hreq, hout.2]
    | none =>
      simp only [hl] at h ⊢
      have hcalls : (listMergedPRsWithLabel g owner repo label).calls ++
            (compareBranches g owner repo releaseBranch "main").calls = pre ++ c :: post →
          ∃ pre₁, (compareBranches g owner repo releaseBranch "main").calls =
            pre₁ ++ c :: post := by
        intro hr2
        rcases split_append _ _ pre post c hr2 with ⟨post₁, h1⟩ | ⟨pre₁, _, h2⟩
        · obtain ⟨_, h3 | h3⟩ := hlist pre c post₁ e h1 he
          · obtain ⟨_, _, _, hout⟩ := h3
            rw [hl] at hout
            simp at hout
          · obtain ⟨_, _, hout⟩ := h3
            rw [hl] at hout
            simp at hout
        · exact ⟨pre₁, h2⟩
      cases hc : (compareBranches g owner repo releaseBranch "main").outcome with
      | returned D err =>
        cases err with
        | some err =>
          simp only [hc] at h ⊢
          obtain ⟨pre₁, h2⟩ := hcalls h
          obtain ⟨hp, hout, pg, hreq⟩ := hcmp pre₁ c post e h2 he
          rw [hc] at hout
          simp only [Outcome.returned.injEq, Option.some.injEq] at hout
          refine ⟨hp, ?_⟩
          rw [hreq, hout.2]
        | none =>
          simp only [hc] at h ⊢
          obtain ⟨pre₁, h2⟩ := hcalls h
          obtain ⟨_, hout, _⟩ := hcmp pre₁ c post e h2 he
          rw [hc] at hout
          simp at hout
      | panicked =>
        simp only [hc] at h ⊢
        obtain ⟨pre₁, h2⟩ := hcalls h
        obtain ⟨_, hout, _⟩ := hcmp pre₁ c post e h2 he
        rw [hc] at hout
        simp at hout
      | starved =>
        simp only [hc] at h ⊢
        obtain ⟨pre₁, h2⟩ := hcalls h
        obtain ⟨_, hout, _⟩ := hcmp pre₁ c post e h2 he
        rw [hc] at hout
        simp at hout
  | panicked =>
    simp only [hl] at h ⊢
    obtain ⟨_, h1 | h1⟩ := hlist pre c post e h he
    · obtain ⟨_, _, _, hout⟩ := h1
      rw [hl] at hout
      simp at hout
    · obtain ⟨_, _, hout⟩ := h1
      rw [hl] at hout
      simp at hout
  | starved =>
    simp only [hl] at h ⊢
    obtain ⟨_, h1 | h1⟩ := hlist pre c post e h he
    · obtain ⟨_, _, _, hout⟩ := h1
      rw [hl] at hout
      simp at hout
    · obtain ⟨_, _, hout⟩ := h1
      rw [hl] at hout
      simp at hout

/-- C6 as stated fails on a detail fetch: pull request 9's detail fetch comes
back with the error `502 Bad Gateway`, and what `listMergedPRsWithLabel` returns
is not that error but `fmt.Errorf("getting PR #%d: %w", 9, err)`. -/
theorem detail_fetch_error_is_returned_wrapped :
    (listMergedPRsWithLabel exampleGitHubDetailFails "o" "r" "backport").calls =
        [⟨.searchIssues "repo:o/r is:pr is:merged label:backport" "created" "desc" 1 100, none⟩,
         ⟨.getPullRequest "o" "r" 7, none⟩,
         ⟨.getPullRequest "o" "r" 9, some (.foreign "502 Bad Gateway")⟩] ∧
      (listMergedPRsWithLabel exampleGitHubDetailFails "o" "r" "backport").outcome =
        .returned [] (some (.wrapf "getting PR #%d: %w" [.int 9] (.foreign "502 Bad Gateway"))) ∧
      (listMergedPRsWithLabel exampleGitHubDetailFails "o" "r" "backport").outcome ≠
        .returned [] (some (.foreign "502 Bad Gateway")) := by
  decide

/-- C6, amended (fail-fast resolution, no partial result).  For every script of
the API: if a call `c` among those a function issued came back with error `e`,
then `c` is the last call the function issued (`post = []`: no fetch after the
failing one), the list returned is nil, and the error returned is
* `e` itself for `compareBranches`;
* `e` itself for `listMergedPRsWithLabel` when `c` is a search page fetch, and
  `fmt.Errorf("getting PR #%d: %w", number, e)` when `c` is a detail fetch;
* `fmt.Errorf("comparing branches: %w", e)` for `ListMissingCommits`;
* for `ListMissingCommitsWithLabel` and `ListMissingCommitsWithoutLabel`,
  `fmt.Errorf("comparing branches: %w", e)` when `c` is a compare page fetch and
  `fmt.Errorf` of `"listing PRs with label %q: %w"` around what
  `listMergedPRsWithLabel` returns otherwise. -/
theorem resolution_fails_fast (g : GitHub) (owner repo base head releaseBranch label : String) :
    (∀ pre c post e, (compareBranches g owner repo base head).calls = pre ++ c :: post →
      c.err = some e →
      post = [] ∧ (compareBranches g owner repo base head).outcome = .returned [] (some e)) ∧
    (∀ pre c post e, (listMergedPRsWithLabel g owner repo label).calls = pre ++ c :: post →
      c.err = some e →
      post = [] ∧ (listMergedPRsWithLabel g owner repo label).outcome =
        .returned [] (some (match c.req with
          | .getPullRequest _ _ n => .wrapf "getting PR #%d: %w" [.int n] e
          | _ => e))) ∧
    (∀ pre c post e, (ListMissingCommits g owner repo releaseBranch).calls = pre ++ c :: post →
      c.err = some e →
      post = [] ∧ (ListMissingCommits g owner repo releaseBranch).outcome =
        .returned [] (some (.wrapf "comparing branches: %w" [] e))) ∧
    (∀ pre c post e,
      (ListMissingCommitsWithLabel g owner repo releaseBranch label).calls = pre ++ c :: post →
      c.err = some e →
      post = [] ∧ (ListMissingCommitsWithLabel g owner repo releaseBranch label).outcome =
        .returned [] (some (match c.req with
          | .compareCommits _ _ _ _ _ _ => .wrapf "comparing branches: %w" [] e
          | .searchIssues _ _ _ _ _ => .wrapf "listing PRs with label %q: %w" [.str label] e
          | .getPullRequest _ _ n =>
            .wrapf "listing PRs with label %q: %w" [.str label]
              (.wrapf "getting PR #%d: %w" [.int n] e)))) ∧
    (∀ pre c post e,
      (ListMissingCommitsWithoutLabel g owner repo releaseBranch label).calls =
        pre ++ c :: post →
      c.err = some e →
      post = [] ∧ (ListMissingCommitsWithoutLabel g owner repo releaseBranch label).outcome =
        .returned [] (some (match c.req with
          | .compareCommits _ _ _ _ _ _ => .wrapf "comparing branches: %w" [] e
          | .searchIssues _ _ _ _ _ => .wrapf "listing PRs with label %q: %w" [.str label] e
          | .getPullRequest _ _ n =>
            .wrapf "listing PRs with label %q: %w" [.str label]
              (.wrapf "getting PR #%d: %w" [.int n] e)))) := by
  refine ⟨?_, ?_, ?_, ?_, ?_⟩
  · intro pre c post e h he
    obtain ⟨hp, hout, _⟩ := compareBranches_fail g owner repo base head pre c post e h he
    exact ⟨hp, hout⟩
  · intro pre c post e h he
    obtain ⟨hp, h1 | h1⟩ := listMergedPRsWithLabel_fail g owner repo label pre c post e h he
    · obtain ⟨q, pg, hreq, hout⟩ := h1
      refine ⟨hp, ?_⟩
      rw [hreq, hout]
    · obtain ⟨n, hreq, hout⟩ := h1
      refine ⟨hp, ?_⟩
      rw [hreq, hout]
  · exact fun pre c post e h he => ListMissingCommits_fail g owner repo releaseBranch pre c post e h he
  · exact fun pre c post e h he =>
      ListMissingCommitsWithLabel_fail g owner repo releaseBranch label pre c post e h he
  · exact fun pre c post e h he =>
      ListMissingCommitsWithoutLabel_fail g owner repo releaseBranch label pre c post e h he

/-- C6, amended, on a diff whose second page fails after the label search and the
first page went through: `ListMissingCommitsWithLabel` stops at the failing
page and returns a nil list with the wrapped error. -/
theorem resolution_fails_fast_witness :
    ([] : List Call) = [] ∧
      (ListMissingCommitsWithLabel exampleGitHubCompareFails "o" "r" "v1.2" "backport").outcome =
        .returned [] (some (.wrapf "comparing branches: %w" []
          (.foreign "503 Service Unavailable"))) :=
  (resolution_fails_fast exampleGitHubCompareFails "o" "r" "v1.2" "main" "v1.2"
      "backport").2.2.2.1
    [⟨.searchIssues "repo:o/r is:pr is:merged label:backport" "created" "desc" 1 100, none⟩,
     ⟨.getPullRequest "o" "r" 7, none⟩,
     ⟨.compareCommits "o" "r" "v1.2" "main" 1 100, none⟩]
    ⟨.compareCommits "o" "r" "v1.2" "main" 2 100, some (.foreign "503 Service Unavailable")⟩
    [] (.foreign "503 Service Unavailable") (by decide) rfl

/-! ## The orchestrator (`runCreate`) -/

theorem cherryPickLoop_all_succeed (commits : List Commit) :
    ∀ (rest : List (Option GoError)) (cmds : List (List String)),
      cherryPickLoop commits ⟨List.replicate commits.length none ++ rest, cmds⟩ =
        .done none ⟨rest, cmds ++ commits.map (fun c => ["cherry-pick", c.SHA])⟩ := by
  induction commits with
  | nil => intro rest cmds; simp [cherryPickLoop]
  | cons c commits ih =>
    intro rest cmds
    simp only [List.length_cons, List.replicate_succ, List.cons_append, cherryPickLoop,
      CherryPick, Run, ih]
    simp

theorem cherryPickLoop_fails_at (before : List Commit) :
    ∀ (c : Commit) (after : List Commit) (e : GoError) (rest : List (Option GoError))
      (cmds : List (List String)),
      cherryPickLoop (before ++ c :: after)
          ⟨List.replicate before.length none ++ some e :: rest, cmds⟩ =
        .done (some (.wrapf
          "cherry-pick failed on %s: %w\nResolve the conflict and run: git cherry-pick --continue"
          [.str c.SHA] e))
          ⟨rest, cmds ++ (before ++ [c]).map (fun c => ["cherry-pick", c.SHA])⟩ := by
  induction before with
  | nil => intro c after e rest cmds; simp [cherryPickLoop, CherryPick, Run]
  | cons b before ih =>
    intro c after e rest cmds
    simp only [List.length_cons, List.replicate_succ, List.cons_append, cherryPickLoop,
      CherryPick, Run]
    have h := ih c after e rest (cmds ++ [["cherry-pick", b.SHA]])
    rw [show before.append (c :: after) = before ++ c :: after from rfl, h]
    simp

theorem split_at_index {α : Type} (l : List α) :
    ∀ (i : Nat) (c : α), l[i]? = some c →
      l = l.take i ++ c :: l.drop (i + 1) ∧ l.take (i + 1) = l.take i ++ [c] ∧
        (l.take i).length = i := by
  induction l with
  | nil => intro i c h; simp at h
  | cons a l ih =>
    intro i c h
    cases i with
    | zero =>
      simp only [List.getElem?_cons_zero, Option.some.injEq] at h
      subst h
      simp
    | succ i =>
      simp only [List.getElem?_cons_succ] at h
      obtain ⟨h1, h2, h3⟩ := ih i c h
      refine ⟨?_, ?_, ?_⟩
      · simp only [List.take_succ_cons, List.drop_succ_cons, List.cons_append]
        rw [← h1]
      · simp only [List.take_succ_cons, List.cons_append]
        rw [h2]
      · simp only [List.take_succ_cons, List.length_cons, h3]

theorem printYAML_examplePlanFile :
    printYAML "o/r" "v1.2" ""
      [exampleMissing "a1" [], exampleMissing "a2" [], exampleMissing "a3" []] =
      examplePlanFile := by
  decide

theorem parseCherryPickFile_contents (cp : CherryPickFile) (hrb : cp.ReleaseBranch ≠ "") :
    parseCherryPickFile (.contents (.ok cp)) = .ok cp := by
  simp [parseCherryPickFile, hrb]

/-- C7 (fail-fast halting).  For a decoded plan and every position `k >= 1`
holding a commit `c`: when checkout (directly, or after a failed plain checkout
through the tracking-branch fallback), pull and branch creation succeed, the
cherry-picks of the commits before position `k` succeed and the cherry-pick of
`c` fails with `e`, then `runCreate` returns the error
`cherry-pick failed on <c.SHA>: <e> ...`, the cherry-pick commands it ran are
those of the first `k` commits in plan order, and the failing cherry-pick is the
last command it ran: the commands end there and the rest of the script is
untouched.  Checkout is run only for a plan whose release branch is not empty;
for an empty one `runCreate` stops at `parseCherryPickFile` and runs nothing. -/
theorem runCreate_halts_at_failing_cherry_pick (now : String)
    (cp : CherryPickFile) (k : Nat) (c : Commit) (e e₀ : GoError)
    (rest : List (Option GoError))
    (hk : 1 ≤ k) (hc : cp.Commits[k - 1]? = some c) :
    (cp.ReleaseBranch ≠ "" →
      runCreate now (.contents (.ok cp))
          ⟨[none, none, none] ++ List.replicate (k - 1) none ++ some e :: rest, []⟩ =
        .done (some (.wrapf
          "cherry-pick failed on %s: %w\nResolve the conflict and run: git cherry-pick --continue"
          [.str c.SHA] e))
          ⟨rest, [["checkout", cp.ReleaseBranch], ["pull", "--ff-only"],
                  ["checkout", "-b", "cherrypick-" ++ now]] ++
            (cp.Commits.take k).map (fun c => ["cherry-pick", c.SHA])⟩ ∧
      runCreate now (.contents (.ok cp))
          ⟨[some e₀, none, none, none] ++ List.replicate (k - 1) none ++ some e :: rest, []⟩ =
        .done (some (.wrapf
          "cherry-pick failed on %s: %w\nResolve the conflict and run: git cherry-pick --continue"
          [.str c.SHA] e))
          ⟨rest, [["checkout", cp.ReleaseBranch],
                  ["checkout", "-b", cp.ReleaseBranch, "origin/" ++ cp.ReleaseBranch],
                  ["pull", "--ff-only"], ["checkout", "-b", "cherrypick-" ++ now]] ++
            (cp.Commits.take k).map (fun c => ["cherry-pick", c.SHA])⟩) ∧
    (cp.ReleaseBranch = "" →
      ∀ s, runCreate now (.contents (.ok cp)) s =
        .done (some (.wrapf "parsing input file: %w" []
          (.errorf "releaseBranch is missing from YAML file" []))) s) := by
  constructor
  · intro hrb
    obtain ⟨h1, h2, h3⟩ := split_at_index cp.Commits (k - 1) c hc
    have hk1 : k - 1 + 1 = k := Nat.sub_add_cancel hk
    rw [hk1] at h1 h2
    have hne : cp.Commits.length ≠ 0 := by
      rw [h1]
      simp
    have hloop : ∀ cmds, cherryPickLoop cp.Commits
        ⟨List.replicate (k - 1) none ++ some e :: rest, cmds⟩ =
        .done (some (.wrapf
          "cherry-pick failed on %s: %w\nResolve the conflict and run: git cherry-pick --continue"
          [.str c.SHA] e))
          ⟨rest, cmds ++ (cp.Commits.take k).map (fun c => ["cherry-pick", c.SHA])⟩ := by
      intro cmds
      have := cherryPickLoop_fails_at (cp.Commits.take (k - 1)) c (cp.Commits.drop k) e rest cmds
      rw [h3, ← h1, ← h2] at this
      exact this
    constructor
    · simp [runCreate, parseCherryPickFile_contents cp hrb, hne, Checkout, Run, Pull,
        CreateBranch, hloop]
    · simp [runCreate, parseCherryPickFile_contents cp hrb, hne, Checkout, Run, Pull,
        CreateBranch, hloop]
  · intro hrb s
    simp [runCreate, parseCherryPickFile, hrb]

/-- C7 on the plan `[a1, a2, a3]` where `a2` conflicts: the run reports `a2`,
has cherry-picked `a1` and tried `a2`, and ran nothing after it. -/
theorem runCreate_halts_at_failing_cherry_pick_witness :
    runCreate "20240101-120000" (.contents (.ok examplePlanFile))
        ⟨[none, none, none] ++ List.replicate (2 - 1) none ++
          some (.foreign "exit status 1") :: [none, none], []⟩ =
      .done (some (.wrapf
        "cherry-pick failed on %s: %w\nResolve the conflict and run: git cherry-pick --continue"
        [.str "a2"] (.foreign "exit status 1")))
        ⟨[none, none], [["checkout", "v1.2"], ["pull", "--ff-only"],
                ["checkout", "-b", "cherrypick-" ++ "20240101-120000"]] ++
          (examplePlanFile.Commits.take 2).map (fun c => ["cherry-pick", c.SHA])⟩ :=
  ((runCreate_halts_at_failing_cherry_pick "20240101-120000" examplePlanFile 2
    ⟨"a2", 1700000000, "dev", "subject of a2", 0⟩ (.foreign "exit status 1")
    (.foreign "exit status 128") [none, none] (by decide) (by decide)).1
    (by decide)).1

/-- C8 (a successful run replays the plan in order).  For a plan with a
non-empty release branch and at least one commit, when every git command
succeeds `runCreate` returns nil and the commands it ran are, in order,
`checkout <releaseBranch>`, `pull --ff-only`, `checkout -b cherrypick-<now>` and
one `cherry-pick <sha>` per commit of the plan, in plan order. -/
theorem runCreate_replays_plan_in_order (now : String) (cp : CherryPickFile)
    (rest : List (Option GoError))
    (hrb : cp.ReleaseBranch ≠ "") (hN : 1 ≤ cp.Commits.length) :
    runCreate now (.contents (.ok cp))
        ⟨List.replicate (3 + cp.Commits.length) none ++ rest, []⟩ =
      .done none
        ⟨rest, [["checkout", cp.ReleaseBranch], ["pull", "--ff-only"],
                ["checkout", "-b", "cherrypick-" ++ now]] ++
          cp.Commits.map (fun c => ["cherry-pick", c.SHA])⟩ := by
  have hne : cp.Commits.length ≠ 0 := by omega
  have h3 : List.replicate (3 + cp.Commits.length) (none : Option GoError) =
      none :: none :: none :: List.replicate cp.Commits.length none := by
    rw [Nat.add_comm]
    rfl
  rw [h3]
  simp [runCreate, parseCherryPickFile_contents cp hrb, hne, Checkout, Run, Pull,
    CreateBranch, cherryPickLoop_all_succeed]

/-- C8 on the plan `[a1, a2, a3]` for release branch `v1.2`. -/
theorem runCreate_replays_plan_in_order_witness :
    runCreate "20240101-120000" (.contents (.ok examplePlanFile))
        ⟨List.replicate (3 + examplePlanFile.Commits.length) none ++ [], []⟩ =
      .done none
        ⟨[], [["checkout", "v1.2"], ["pull", "--ff-only"],
              ["checkout", "-b", "cherrypick-" ++ "20240101-120000"]] ++
          examplePlanFile.Commits.map (fun c => ["cherry-pick", c.SHA])⟩ :=
  runCreate_replays_plan_in_order "20240101-120000" examplePlanFile []
    (by decide) (by decide)

/-- C9 (input errors come before any git command).  For every decoded plan
whose release branch is empty or whose commit list is empty, `runCreate`
returns an error and leaves the git state as it found it: no command is run.
The error is `parsing input file: releaseBranch is missing from YAML file` in
the first case and `no commits found in input file` otherwise. -/
theorem runCreate_rejects_plan_before_any_command (now : String)
    (cp : CherryPickFile) (s : GitState)
    (hbad : cp.ReleaseBranch = "" ∨ cp.Commits = []) :
    runCreate now (.contents (.ok cp)) s =
      .done (some (if cp.ReleaseBranch = "" then
          .wrapf "parsing input file: %w" []
            (.errorf "releaseBranch is missing from YAML file" [])
        else .errorf "no commits found in input file" [])) s := by
  by_cases hrb : cp.ReleaseBranch = ""
  · simp [runCreate, parseCherryPickFile, hrb]
  · have hc : cp.Commits = [] := hbad.resolve_left hrb
    simp [runCreate, parseCherryPickFile, hrb, hc]

/-- C9 on a plan for `v1.2` whose commit list is empty, with git ready to
succeed: nothing is run. -/
theorem runCreate_rejects_plan_before_any_command_witness :
    runCreate "20240101-120000" (.contents (.ok ⟨"https://github.com/o/r", "v1.2", "", []⟩))
        ⟨[none, none, none], []⟩ =
      .done (some (if (CherryPickFile.mk "https://github.com/o/r" "v1.2" "" []).ReleaseBranch = ""
          then .wrapf "parsing input file: %w" []
            (.errorf "releaseBranch is missing from YAML file" [])
          else .errorf "no commits found in input file" [])) ⟨[none, none, none], []⟩ :=
  runCreate_rejects_plan_before_any_command "20240101-120000"
    ⟨"https://github.com/o/r", "v1.2", "", []⟩ ⟨[none, none, none], []⟩ (Or.inr rfl)

end Cherrypicker
